import Mathlib

/-
Verification of the CPP-UFGSG-Decomposition pipeline (coverage path planning on
rectilinear polygons).

Modelling conventions, used throughout:

* Python floats are modelled as exact rationals.  The float literal 1e-7 is
  modelled as the rational 1/10^7, and 1e-6 as 1/10^6.
* The Euclidean metric (math.hypot, math.sqrt in the source) involves real
  square roots, which are not computable over the rationals.  Every function
  of the source that measures path or connector length is therefore
  parameterised by a metric `d : Point → Point → ℚ`; all theorems below hold
  for an arbitrary metric, in particular for the Euclidean one.
* Likewise the angle test of count_turns (math.atan2 plus normalisation,
  compared against 1e-7) is parameterised as a Boolean test `isTurn` on the
  two consecutive direction vectors.  No theorem below depends on the value
  of that test on paths with three or more waypoints.
* The value float("inf") paired with a None path, which held_karp uses as the
  "no tour found" sentinel, is modelled by the value none of an Option type.
* Geometric primitives supplied by the external shapely library (polygon
  splitting, polygon union, boundary-intersection length, emptiness) are not
  code of this repository; where a claim depends only on the control flow
  around them they are taken as oracle parameters of the embedded function.
  The sweep-line crossing count of is_polygon_troublesome and
  quantify_gap_severity is implemented exactly for rectilinear polygons in
  generic position (the sweep line, placed strictly between two distinct
  snapped coordinates, passes through no vertex and contains no edge; each
  crossing edge contributes one intersection point, duplicates merged).
-/

abbrev Point := ℚ × ℚ

/-- CandidateOption of cpp.utils.helpers: one boustrophedon sweep candidate. -/
structure CandidateOption where
  entry : Point
  exit : Point
  cost : ℚ
  turns : ℤ
  path : Option (List Point) := none
deriving DecidableEq

instance : Inhabited CandidateOption := ⟨⟨(0, 0), (0, 0), 0, 0, none⟩⟩

/-- Rational model of the float literal 1e-7, the default tol of
adjust_candidate_options. -/
def defaultTol : ℚ := 1 / 10 ^ 7

/-! ## global_optimizer.adjust_candidate_options -/

/-- Turn counts of the candidates of the same partition whose cost differs from
the cost of cand by less than tol; the list same_cost_turns of
adjust_candidate_options. -/
def sameCostTurns (partition : List CandidateOption) (cand : CandidateOption)
    (tol : ℚ) : List ℤ :=
  (partition.filter (fun c => |c.cost - cand.cost| < tol)).map (·.turns)

/-- Value min_turns of adjust_candidate_options: the minimum of same_cost_turns
when that list is non-empty, else the turn count of cand itself. -/
def minTurnsNear (partition : List CandidateOption) (cand : CandidateOption)
    (tol : ℚ) : ℤ :=
  match sameCostTurns partition cand tol with
  | [] => cand.turns
  | t :: ts => ts.foldl min t

/-- Body of the partition loop of adjust_candidate_options: each candidate gets
penalty * max(0, turns - min_turns) added to its cost, all other fields kept. -/
def adjustPartition (partition : List CandidateOption) (penalty tol : ℚ) :
    List CandidateOption :=
  partition.map (fun cand =>
    { entry := cand.entry
      exit := cand.exit
      cost := cand.cost + penalty * ((max 0 (cand.turns - minTurnsNear partition cand tol) : ℤ) : ℚ)
      turns := cand.turns
      path := cand.path })

/-- adjust_candidate_options of cpp.global_optimizer. -/
def adjust_candidate_options (candidate_options : List (List CandidateOption))
    (penalty tol : ℚ) : List (List CandidateOption) :=
  candidate_options.map (fun partition => adjustPartition partition penalty tol)

/-! ## global_optimizer.held_karp -/

/-- Candidate lookup candidate_options[j][k]; indices produced by the dynamic
program are always in range, out-of-range indices yield the default. -/
def candAt (opts : List (List CandidateOption)) (j k : ℕ) : CandidateOption :=
  (opts.getD j []).getD k default

/-- Left-biased minimum of two optional (cost, path) values, modelling the
running best of the Python loops: none stands for (float("inf"), None), and a
new value replaces the best one exactly when its cost is strictly smaller. -/
def obetter (a b : Option (ℚ × List (ℕ × ℕ))) : Option (ℚ × List (ℕ × ℕ)) :=
  match a, b with
  | none, b => b
  | some a, none => some a
  | some a, some b => if b.1 < a.1 then some b else some a

/-- Pairs (j, cand_idx) enumerated by the transition loops of dp: every
partition j not in mask (tested as (mask >> j) & 1), every candidate index of
partition j, in order. -/
def unvisitedPairs (opts : List (List CandidateOption)) (mask : ℕ) :
    List (ℕ × ℕ) :=
  ((List.range opts.length).filter (fun j => !(mask.testBit j))).flatMap
    (fun j => (List.range (opts.getD j []).length).map (fun k => (j, k)))

/-- Inner memoised function dp(mask, last_part, last_cand) of held_karp.  The
fuel argument only forces termination: held_karp calls it with fuel = N, an
upper bound for the number of still unvisited partitions, so the fuel-exhausted
branch is never reached. -/
def dp (d : Point → Point → ℚ) (opts : List (List CandidateOption)) :
    ℕ → ℕ → ℕ → ℕ → Option (ℚ × List (ℕ × ℕ))
  | fuel, mask, last_part, last_cand =>
    if mask = 2 ^ opts.length - 1 then some (0, [])
    else
      match fuel with
      | 0 => none
      | fuel + 1 =>
        let prev_cand := candAt opts last_part last_cand
        (unvisitedPairs opts mask).foldl
          (fun best jk =>
            let cand := candAt opts jk.1 jk.2
            let conn := d prev_cand.exit cand.entry
            obetter best ((dp d opts fuel (mask ||| 2 ^ jk.1) jk.1 jk.2).map
              (fun s => (conn + cand.cost + s.1, jk :: s.2))))
          none

/-- Pairs (i, cand_idx) enumerated by the top-level loops of held_karp. -/
def topPairs (opts : List (List CandidateOption)) : List (ℕ × ℕ) :=
  (List.range opts.length).flatMap
    (fun i => (List.range (opts.getD i []).length).map (fun k => (i, k)))

/-- held_karp of cpp.global_optimizer: adjust the candidate costs with
penalty 1, then minimise total candidate cost plus connector cost over every
start (i, cand_idx), returning the best (total, visit list), or none (the
Python pair (float("inf"), None)) when no tour exists. -/
def held_karp (d : Point → Point → ℚ)
    (candidate_options : List (List CandidateOption)) :
    Option (ℚ × List (ℕ × ℕ)) :=
  let opts := adjust_candidate_options candidate_options 1 defaultTol
  (topPairs opts).foldl
    (fun best ik =>
      let cand := candAt opts ik.1 ik.2
      obetter best ((dp d opts opts.length (2 ^ ik.1) ik.1 ik.2).map
        (fun s => (cand.cost + s.1, ik :: s.2))))
    none

/-! ## Specification side for the Held-Karp claims -/

/-- Partitions not yet visited in mask, in ascending order. -/
def availList (opts : List (List CandidateOption)) (mask : ℕ) : List ℕ :=
  (List.range opts.length).filter (fun j => !(mask.testBit j))

/-- p is a tour over the partition set avail: its first components enumerate
avail in some order (a permutation, each partition exactly once) and each
second component is a valid candidate index of its partition. -/
def IsTourOf (opts : List (List CandidateOption)) (avail : List ℕ)
    (p : List (ℕ × ℕ)) : Prop :=
  List.Perm (p.map Prod.fst) avail ∧ ∀ jk ∈ p, jk.2 < (opts.getD jk.1 []).length

/-- Cost of finishing a tour after a candidate with exit point prev: each
remaining pick contributes its connector from prev plus its own cost. -/
def restCost (d : Point → Point → ℚ) (opts : List (List CandidateOption))
    (prev : Point) : List (ℕ × ℕ) → ℚ
  | [] => 0
  | jk :: rest =>
    let c := candAt opts jk.1 jk.2
    d prev c.entry + c.cost + restCost d opts c.exit rest

/-- Total cost of a full tour: cost of the first chosen candidate plus
connectors and costs of all later ones. -/
def tourCost (d : Point → Point → ℚ) (opts : List (List CandidateOption)) :
    List (ℕ × ℕ) → ℚ
  | [] => 0
  | ik :: rest =>
    let c := candAt opts ik.1 ik.2
    c.cost + restCost d opts c.exit rest

/-! ## utils.helpers: path length, turn counting -/

/-- Stable insertion of a into a list ordered by le (a is placed before the
first b with le a b, hence after earlier equal elements). -/
def orderedInsert {α : Type} (le : α → α → Bool) (a : α) : List α → List α
  | [] => [a]
  | b :: l => if le a b then a :: b :: l else b :: orderedInsert le a l

/-- Model of the Python built-in sorted: a stable ascending sort by the given
comparator (le a b means a may precede b).  Insertion sort, processed from the
right, is stable and reduces by kernel computation. -/
def pySorted {α : Type} (le : α → α → Bool) : List α → List α
  | [] => []
  | a :: l => orderedInsert le a (pySorted le l)

/-- calculate_path_cost / total_path_length: sum of the metric over consecutive
waypoint pairs (metric d in place of the Euclidean distance, see header). -/
def total_path_length (d : Point → Point → ℚ) (path : List Point) : ℚ :=
  (path.zip path.tail).foldl (fun acc pq => acc + d pq.1 pq.2) 0

/-- count_turns of cpp.utils.helpers.  A path with fewer than three waypoints
has no turn; otherwise the direction vector of every segment is formed and a
turn is counted whenever the (abstracted, see header) angle test isTurn holds
on two consecutive direction vectors. -/
def count_turns (isTurn : Point → Point → Bool) (path : List Point) : ℕ :=
  if path.length < 3 then 0
  else
    let dirs := (path.zip path.tail).map
      (fun pq => (pq.2.1 - pq.1.1, pq.2.2 - pq.1.2))
    ((dirs.zip dirs.tail).filter (fun dd => isTurn dd.1 dd.2)).length

/-! ## parallel_track.ParallelTrackSweepCartesian -/

/-- Coordinate of a waypoint along axis 0 (x) or axis 1 (y); models Python
tuple indexing p[axis_index]. -/
def axisCoord (p : Point) (axisIndex : ℕ) : ℚ :=
  if axisIndex = 0 then p.1 else p.2

/-- Python round: round half to even (banker rounding). -/
def pyRound (q : ℚ) : ℤ :=
  let f := ⌊q⌋
  let r := q - f
  if r < 1 / 2 then f
  else if 1 / 2 < r then f + 1
  else if 2 ∣ f then f else f + 1

/-- statistics.median: middle element of the sorted data for odd length, mean
of the two middle elements for even length. -/
def median (l : List ℚ) : ℚ :=
  let s := pySorted (fun a b => a ≤ b) l
  let n := s.length
  if n % 2 = 1 then s.getD (n / 2) 0
  else (s.getD (n / 2 - 1) 0 + s.getD (n / 2) 0) / 2

/-- compute_cell_spacing: median of the positive (greater than the epsilon
1e-6) consecutive differences of the sorted coordinates along axis_index, or 0
when there is no such difference. -/
def compute_cell_spacing (waypoints : List Point) (axisIndex : ℕ) : ℚ :=
  let coords := pySorted (fun a b => a ≤ b)
    (waypoints.map (fun p => axisCoord p axisIndex))
  let diffs := ((coords.zip coords.tail).map (fun ab => ab.2 - ab.1)).filter
    (fun x => 1 / 10 ^ 6 < x)
  if diffs = [] then 0 else median diffs

/-- dict.setdefault(key, []).append(p) on an association list that keeps keys
in insertion order. -/
def lanesSetdefault (lanes : List (ℤ × List Point)) (key : ℤ) (p : Point) :
    List (ℤ × List Point) :=
  match lanes with
  | [] => [(key, [p])]
  | (k, ps) :: rest =>
    if k = key then (k, ps ++ [p]) :: rest
    else (k, ps) :: lanesSetdefault rest key p

/-- group_into_lanes: bin waypoints by round((coord - min) / spacing), or all
into lane 0 when spacing is 0.  The Python dict is an association list in key
insertion order. -/
def group_into_lanes (waypoints : List Point) (axisIndex : ℕ) (spacing : ℚ) :
    List (ℤ × List Point) :=
  match waypoints with
  | [] => []
  | w :: ws =>
    let minVal := ws.foldl (fun m p => min m (axisCoord p axisIndex))
      (axisCoord w axisIndex)
    if spacing = 0 then [(0, waypoints)]
    else
      waypoints.foldl
        (fun lanes p =>
          lanesSetdefault lanes (pyRound ((axisCoord p axisIndex - minVal) / spacing)) p)
        []

/-- Lane list lookup lanes[key]. -/
def laneAt (lanes : List (ℤ × List Point)) (key : ℤ) : List Point :=
  ((lanes.find? (fun kv => kv.1 = key)).map Prod.snd).getD []

/-- compute_sweep_path: bin into lanes, order the lane keys (optionally
reversed), and traverse each lane sorted by sort_axis in a zigzag, flipped by
reverse_lane_order.  Python sorted(...) is a stable sort, modelled by
pySorted. -/
def compute_sweep_path (waypoints : List Point) (binAxis sortAxis : ℕ)
    (reverseBinOrder reverseLaneOrder : Bool) : List Point :=
  let spacing := compute_cell_spacing waypoints binAxis
  let lanes := group_into_lanes waypoints binAxis spacing
  let orderedKeys := pySorted
    (fun a b => if reverseBinOrder then b ≤ a else a ≤ b) (lanes.map Prod.fst)
  (orderedKeys.enum).foldl
    (fun path ikey =>
      let lane := laneAt lanes ikey.2
      let evenLaneShouldAscend :=
        (ikey.1 % 2 = 0 && !reverseLaneOrder) || (ikey.1 % 2 = 1 && reverseLaneOrder)
      let sortedLane :=
        if evenLaneShouldAscend then
          pySorted (fun p q => axisCoord p sortAxis ≤ axisCoord q sortAxis) lane
        else
          pySorted (fun p q => axisCoord q sortAxis ≤ axisCoord p sortAxis) lane
      path ++ sortedLane)
    []

/-- corner_variants_for_direction: the four corner-start sweep paths for one
(bin_axis, sort_axis) direction. -/
def corner_variants_for_direction (waypoints : List Point)
    (binAxis sortAxis : ℕ) : List (List Point) :=
  [compute_sweep_path waypoints binAxis sortAxis false false,
   compute_sweep_path waypoints binAxis sortAxis false true,
   compute_sweep_path waypoints binAxis sortAxis true false,
   compute_sweep_path waypoints binAxis sortAxis true true]

/-- Body of the conversion loop of get_candidate_options: skip empty paths,
otherwise build the CandidateOption (entry and exit are the first and last
waypoint, cost the summed metric, turns the turn count). -/
def pathToOption (d : Point → Point → ℚ) (isTurn : Point → Point → Bool)
    (path : List Point) : Option CandidateOption :=
  if path = [] then none
  else
    some
      { entry := path.headD (0, 0)
        exit := path.getLastD (0, 0)
        cost := total_path_length d path
        turns := (count_turns isTurn path : ℤ)
        path := some path }

/-- get_candidate_options of cpp.parallel_track.  The polygon argument only
enters through the truthiness test and is_polygon_troublesome(polygon, 1); it
is modelled by flags : Option (Bool x Bool) carrying that result, none when the
polygon is absent (or falsy, that is empty).  The metric d and angle test
isTurn abstract math.sqrt and math.atan2 (see header). -/
def get_candidate_options (d : Point → Point → ℚ)
    (isTurn : Point → Point → Bool) (flags : Option (Bool × Bool))
    (waypoints : List Point) : List CandidateOption :=
  let ok :=
    match flags with
    | some hv => (!hv.1, !hv.2)
    | none => (true, true)
  let horizontalOk := ok.1
  let verticalOk := ok.2
  let candidatePaths :=
    (if horizontalOk || (!horizontalOk && !verticalOk) then
      corner_variants_for_direction waypoints 0 1
     else []) ++
    (if verticalOk || (!verticalOk && !horizontalOk) then
      corner_variants_for_direction waypoints 1 0
     else [])
  candidatePaths.filterMap (pathToOption d isTurn)

/-! ## utils.helpers.distribute_cells_to_subclusters -/

/-- CellID (row, col) of cpp.utils.helpers. -/
abbrev CellID := ℤ × ℤ

/-- Inner loop of distribute_cells_to_subclusters for one cell: scan the
partitions from index idx with running best (best_idx, best_area), skipping
partitions whose isEmptyP test holds (Python: not part_poly or
part_poly.is_empty), updating on strictly larger intersection area.  The
oracle area c p models get_cell_polygon(c, cell_size).intersection(p).area
for the ambient cell size (shapely is external, see header). -/
def bestPartition {π : Type} (area : CellID → π → ℚ) (isEmptyP : π → Bool)
    (c : CellID) : ℕ → List π → Option ℕ × ℚ → Option ℕ × ℚ
  | _, [], st => st
  | idx, p :: rest, st =>
    if isEmptyP p then bestPartition area isEmptyP c (idx + 1) rest st
    else if st.2 < area c p then
      bestPartition area isEmptyP c (idx + 1) rest (some idx, area c p)
    else bestPartition area isEmptyP c (idx + 1) rest st

/-- Partition index chosen for one cell: best_idx after the scan started at
(None, 0.0). -/
def assignCell {π : Type} (area : CellID → π → ℚ) (isEmptyP : π → Bool)
    (parts : List π) (c : CellID) : Option ℕ :=
  (bestPartition area isEmptyP c 0 parts (none, 0)).1

/-- Loop body of distribute_cells_to_subclusters for one cell: append the
cell to the list of its chosen partition, or drop it when no partition was
chosen. -/
def distStep {π : Type} (area : CellID → π → ℚ) (isEmptyP : π → Bool)
    (parts : List π) (out : List (List CellID)) (c : CellID) :
    List (List CellID) :=
  match assignCell area isEmptyP parts c with
  | none => out
  | some i => out.set i (out.getD i [] ++ [c])

/-- distribute_cells_to_subclusters of cpp.utils.helpers: start with an empty
list per partition and append each cell to the list of its chosen partition
(cells with no choice are dropped).  The Python dict {i: [...]} is the list
whose i-th entry is the list of partition i. -/
def distribute_cells_to_subclusters {π : Type} (area : CellID → π → ℚ)
    (isEmptyP : π → Bool) (cellIds : List CellID) (parts : List π) :
    List (List CellID) :=
  let out := List.replicate parts.length ([] : List CellID)
  if cellIds.isEmpty || parts.isEmpty then out
  else cellIds.foldl (distStep area isEmptyP parts) out

/-! ## decomposition: rectilinear polygons, trouble analyzer -/

/-- Polygon with one outer ring and hole rings; rings are stored as point
lists without the closing duplicate (the closing edge is implicit). -/
structure RectPoly where
  exterior : List Point
  holes : List (List Point)
deriving DecidableEq

/-- Model of the shapely emptiness test on a piece. -/
def isEmptyPoly (p : RectPoly) : Bool :=
  p.exterior.isEmpty

/-- gather_all_ring_coords: coordinates of the exterior and all interior
rings. -/
def gather_all_ring_coords (p : RectPoly) : List Point :=
  p.exterior ++ p.holes.flatten

/-- Edges of a ring, including the closing edge from the last point back to
the first. -/
def ringEdges (ring : List Point) : List (Point × Point) :=
  ring.zip (ring.rotate 1)

/-- All boundary edges: exterior ring and every hole ring. -/
def allEdges (p : RectPoly) : List (Point × Point) :=
  ringEdges p.exterior ++ (p.holes.map ringEdges).flatten

/-- Ascending list of the distinct members of l. -/
def sortedUnique (l : List ℚ) : List ℚ :=
  pySorted (fun a b => a ≤ b) l.dedup

/-- Coordinate snapping round(v / tol) * tol of the source, with the Python
half-to-even rounding, followed by sorted de-duplication (sorted(set(...))). -/
def snapVals (vals : List ℚ) (tol : ℚ) : List ℚ :=
  sortedUnique (vals.map (fun v => (pyRound (v / tol) : ℚ) * tol))

/-- Distinct x-coordinates at which the boundary crosses the horizontal sweep
line y = c.  Exact model of extract_points_from_intersection for a rectilinear
polygon in generic position: each edge whose y-extent strictly contains c
contributes the point at its x-coordinate, shapely merges duplicates.  The
sweep segment spans (minx-1, maxx+1), so every boundary edge is within its
x-range. -/
def hCrossXs (p : RectPoly) (c : ℚ) : List ℚ :=
  sortedUnique ((allEdges p).filterMap
    (fun e => if min e.1.2 e.2.2 < c ∧ c < max e.1.2 e.2.2 then some e.1.1 else none))

/-- Distinct y-coordinates at which the boundary crosses the vertical sweep
line x = c (mirror of hCrossXs). -/
def vCrossYs (p : RectPoly) (c : ℚ) : List ℚ :=
  sortedUnique ((allEdges p).filterMap
    (fun e => if min e.1.1 e.2.1 < c ∧ c < max e.1.1 e.2.1 then some e.1.2 else none))

/-- is_polygon_troublesome of cpp.decomposition: snap and deduplicate the y
(resp. x) coordinates of all rings; the polygon is troublesome horizontally
(resp. vertically) when some sweep line placed halfway between consecutive
values crosses the boundary in more than two points. -/
def is_polygon_troublesome (p : RectPoly) (tol : ℚ) : Bool × Bool :=
  let coords := gather_all_ring_coords p
  let ys := snapVals (coords.map Prod.snd) tol
  let xs := snapVals (coords.map Prod.fst) tol
  ((ys.zip ys.tail).any (fun ab => 2 < (hCrossXs p ((ab.1 + ab.2) / 2)).length),
   (xs.zip xs.tail).any (fun ab => 2 < (vCrossYs p ((ab.1 + ab.2) / 2)).length))

/-- Widths of the gap pairs (pts[j], pts[j+1]) for j = 1, 3, 5, ... with
j + 1 < len(pts): drop the first point, then take the difference of each
remaining consecutive pair. -/
def pairGaps : List ℚ → List ℚ
  | a :: b :: rest => (b - a) :: pairGaps rest
  | _ => []

/-- Aggregated result of quantify_gap_severity needed by the partitioner.  A
union is the interval hull, along the sweep-orthogonal axis, of the bands
whose sweep was troublesome: the code intersects each troublesome band with
the polygon and unions the results, and for a connected rectilinear polygon
whose snapped coordinates are exact the bounds of that union along the cut
axis are exactly the hull of the troublesome band intervals.  The remaining
fields of the Python dict (max gaps, combined gap, per-band details) are
diagnostic and omitted. -/
structure GapMetrics where
  total_horizontal_gap : ℚ
  total_vertical_gap : ℚ
  horizontal_union : Option (ℚ × ℚ)
  vertical_union : Option (ℚ × ℚ)
deriving DecidableEq

/-- Interval hull accumulation for the union of troublesome bands. -/
def unionAdd : Option (ℚ × ℚ) → ℚ × ℚ → Option (ℚ × ℚ)
  | none, iv => some iv
  | some ab, iv => some (min ab.1 iv.1, max ab.2 iv.2)

/-- quantify_gap_severity of cpp.decomposition (aggregated metrics only; the
allRings flag selects candidate_source = "all_rings", the partitioner uses the
default exterior source).  For each band between consecutive snapped
candidate values, the sweep at the band midpoint is intersected with the full
boundary; a band with more than two crossing points is troublesome, adds its
interior gap widths to the total and its interval to the union. -/
def quantify_gap_severity (p : RectPoly) (tol : ℚ) (allRings : Bool) :
    GapMetrics :=
  let coords := if allRings then gather_all_ring_coords p else p.exterior
  let ys := snapVals (coords.map Prod.snd) tol
  let xs := snapVals (coords.map Prod.fst) tol
  let hAcc := (ys.zip ys.tail).foldl
    (fun acc ab =>
      let pts := hCrossXs p ((ab.1 + ab.2) / 2)
      if 2 < pts.length then
        (acc.1 + (pairGaps pts.tail).sum, unionAdd acc.2 (ab.1, ab.2))
      else acc)
    ((0 : ℚ), (none : Option (ℚ × ℚ)))
  let vAcc := (xs.zip xs.tail).foldl
    (fun acc ab =>
      let pts := vCrossYs p ((ab.1 + ab.2) / 2)
      if 2 < pts.length then
        (acc.1 + (pairGaps pts.tail).sum, unionAdd acc.2 (ab.1, ab.2))
      else acc)
    ((0 : ℚ), (none : Option (ℚ × ℚ)))
  { total_horizontal_gap := hAcc.1
    total_vertical_gap := vAcc.1
    horizontal_union := hAcc.2
    vertical_union := vAcc.2 }

/-! ## decomposition: greedy partitioner -/

/-- Axis-aligned infinite cut line (the LineString endpoints only extend it
past the polygon bounds). -/
inductive CutLine
  | horiz (y : ℚ)
  | vert (x : ℚ)
deriving DecidableEq

/-- Diagnostic pass record of _greedy_partition (subject polygon, depth and
chosen cut line; the metrics and per-candidate details are omitted). -/
structure PassRec where
  depth : ℕ
  subject : RectPoly
  cutLine : Option CutLine
deriving DecidableEq

/-- Cut-line choice of _greedy_partition: with both unions present, cut across
the axis with the not-smaller total gap at the midline of that union; with one
union, cut across its axis; with none, no cut. -/
def cutChoice (m : GapMetrics) : Option CutLine :=
  match m.horizontal_union, m.vertical_union with
  | some hu, some vu =>
    if m.total_vertical_gap ≤ m.total_horizontal_gap then
      some (CutLine.horiz ((hu.1 + hu.2) / 2))
    else some (CutLine.vert ((vu.1 + vu.2) / 2))
  | some hu, none => some (CutLine.horiz ((hu.1 + hu.2) / 2))
  | none, some vu => some (CutLine.vert ((vu.1 + vu.2) / 2))
  | none, none => none

/-- Split attempt with the axis fallback of _greedy_partition: when the first
cut leaves at most one piece, retry once across the other axis if that union
exists.  Returns the cut finally used and its pieces.  splitFn is the oracle
for shapely.ops.split (pieces listed flattened; the try/except around split is
not modelled since the oracle is total). -/
def fallbackSplit (splitFn : RectPoly → CutLine → List RectPoly)
    (m : GapMetrics) (p : RectPoly) (cl : CutLine) :
    CutLine × List RectPoly :=
  let splitted := splitFn p cl
  if splitted.length ≤ 1 then
    match cl with
    | CutLine.horiz _ =>
      match m.vertical_union with
      | some vu =>
        let c2 := CutLine.vert ((vu.1 + vu.2) / 2)
        (c2, splitFn p c2)
      | none => (cl, splitted)
    | CutLine.vert _ =>
      match m.horizontal_union with
      | some hu =>
        let c2 := CutLine.horiz ((hu.1 + hu.2) / 2)
        (c2, splitFn p c2)
      | none => (cl, splitted)
  else (cl, splitted)

mutual
/-- Recursion of _greedy_partition of cpp.decomposition.  The fuel argument
only forces termination: the top level passes fuel = max_depth, an upper bound
for max_depth - depth, so the fuel-exhausted branch is never reached. -/
def greedy_partition_aux (splitFn : RectPoly → CutLine → List RectPoly)
    (maxDepth : ℕ) (tol : ℚ) : ℕ → ℕ → RectPoly → List RectPoly × List PassRec
  | fuel, depth, p =>
    if maxDepth ≤ depth ∨
        ¬((is_polygon_troublesome p tol).1 ∧ (is_polygon_troublesome p tol).2) then
      ([p], [])
    else
      match fuel with
      | 0 => ([p], [])
      | fuel + 1 =>
        match cutChoice (quantify_gap_severity p tol false) with
        | none => ([p], [(⟨depth, p, none⟩ : PassRec)])
        | some cl =>
          if (fallbackSplit splitFn (quantify_gap_severity p tol false) p cl).2.length ≤ 1 then
            ([p], [(⟨depth, p,
              some (fallbackSplit splitFn (quantify_gap_severity p tol false) p cl).1⟩ : PassRec)])
          else
            ((greedy_partition_go splitFn maxDepth tol fuel (depth + 1)
                (fallbackSplit splitFn (quantify_gap_severity p tol false) p cl).2).1,
             (⟨depth, p,
               some (fallbackSplit splitFn (quantify_gap_severity p tol false) p cl).1⟩ : PassRec) ::
             (greedy_partition_go splitFn maxDepth tol fuel (depth + 1)
                (fallbackSplit splitFn (quantify_gap_severity p tol false) p cl).2).2)

/-- Loop of _greedy_partition over the split pieces: skip empty pieces,
recurse on the rest, concatenating pieces and pass records. -/
def greedy_partition_go (splitFn : RectPoly → CutLine → List RectPoly)
    (maxDepth : ℕ) (tol : ℚ) : ℕ → ℕ → List RectPoly → List RectPoly × List PassRec
  | _, _, [] => ([], [])
  | fuel, depth, q :: rest =>
    if isEmptyPoly q then greedy_partition_go splitFn maxDepth tol fuel depth rest
    else
      ((greedy_partition_aux splitFn maxDepth tol fuel depth q).1 ++
        (greedy_partition_go splitFn maxDepth tol fuel depth rest).1,
       (greedy_partition_aux splitFn maxDepth tol fuel depth q).2 ++
        (greedy_partition_go splitFn maxDepth tol fuel depth rest).2)
end

/-- greedy_partition of cpp.decomposition (pieces plus pass records; the
passes dict wrapper is dropped). -/
def greedy_partition (splitFn : RectPoly → CutLine → List RectPoly)
    (p : RectPoly) (maxDepth : ℕ) (tol : ℚ) : List RectPoly × List PassRec :=
  greedy_partition_aux splitFn maxDepth tol maxDepth 0 p

mutual
/-- Instrumented copy of greedy_partition_aux that tags every returned piece
with the recursion depth at which it was emitted (specification side; the
agreement with greedy_partition_aux is proved below). -/
def greedy_partition_auxD (splitFn : RectPoly → CutLine → List RectPoly)
    (maxDepth : ℕ) (tol : ℚ) : ℕ → ℕ → RectPoly → List (RectPoly × ℕ) × List PassRec
  | fuel, depth, p =>
    if maxDepth ≤ depth ∨
        ¬((is_polygon_troublesome p tol).1 ∧ (is_polygon_troublesome p tol).2) then
      ([(p, depth)], [])
    else
      match fuel with
      | 0 => ([(p, depth)], [])
      | fuel + 1 =>
        match cutChoice (quantify_gap_severity p tol false) with
        | none => ([(p, depth)], [(⟨depth, p, none⟩ : PassRec)])
        | some cl =>
          if (fallbackSplit splitFn (quantify_gap_severity p tol false) p cl).2.length ≤ 1 then
            ([(p, depth)], [(⟨depth, p,
              some (fallbackSplit splitFn (quantify_gap_severity p tol false) p cl).1⟩ : PassRec)])
          else
            ((greedy_partition_goD splitFn maxDepth tol fuel (depth + 1)
                (fallbackSplit splitFn (quantify_gap_severity p tol false) p cl).2).1,
             (⟨depth, p,
               some (fallbackSplit splitFn (quantify_gap_severity p tol false) p cl).1⟩ : PassRec) ::
             (greedy_partition_goD splitFn maxDepth tol fuel (depth + 1)
                (fallbackSplit splitFn (quantify_gap_severity p tol false) p cl).2).2)

/-- Instrumented copy of greedy_partition_go. -/
def greedy_partition_goD (splitFn : RectPoly → CutLine → List RectPoly)
    (maxDepth : ℕ) (tol : ℚ) : ℕ → ℕ → List RectPoly → List (RectPoly × ℕ) × List PassRec
  | _, _, [] => ([], [])
  | fuel, depth, q :: rest =>
    if isEmptyPoly q then greedy_partition_goD splitFn maxDepth tol fuel depth rest
    else
      ((greedy_partition_auxD splitFn maxDepth tol fuel depth q).1 ++
        (greedy_partition_goD splitFn maxDepth tol fuel depth rest).1,
       (greedy_partition_auxD splitFn maxDepth tol fuel depth q).2 ++
        (greedy_partition_goD splitFn maxDepth tol fuel depth rest).2)
end

/-- Depth-instrumented greedy_partition. -/
def greedy_partitionD (splitFn : RectPoly → CutLine → List RectPoly)
    (p : RectPoly) (maxDepth : ℕ) (tol : ℚ) : List (RectPoly × ℕ) × List PassRec :=
  greedy_partition_auxD splitFn maxDepth tol maxDepth 0 p

/-- The partitioner is stuck on polygon q: the exterior-based gap quantifier
offers no cut (both unions absent), or the chosen cut, after the fallback axis
retry, still fails to split q into more than one piece. -/
def stuckAt (splitFn : RectPoly → CutLine → List RectPoly) (tol : ℚ)
    (q : RectPoly) : Prop :=
  let m := quantify_gap_severity q tol false
  cutChoice m = none ∨
    ∃ cl, cutChoice m = some cl ∧ (fallbackSplit splitFn m q cl).2.length ≤ 1

/-! ## decomposition.merge_partitions -/

/-- Inner j-loop of one merge pass, iterating over the (index, polygon) pairs
after position i of the enumerated partition list, with the running absorbed
polygon polyI, the used index set and the merged_any flag.  Oracles (shapely
is external, see header): sharedLen i j is the total length of the linear
components of the boundary intersection; unionFn returns the union normalised
to a single polygon, or none for every skip case of the source (empty union,
MultiPolygon, GeometryCollection without exactly one polygon); troubleFn is
is_polygon_troublesome at the ambient tolerance. -/
def mergeInner {π : Type} (sharedLen : π → π → ℚ) (unionFn : π → π → Option π)
    (troubleFn : π → Bool × Bool) (tol : ℚ) :
    π → List ℕ → Bool → List (ℕ × π) → π × List ℕ × Bool
  | polyI, used, merged, [] => (polyI, used, merged)
  | polyI, used, merged, (j, polyJ) :: rest =>
    if j ∈ used then mergeInner sharedLen unionFn troubleFn tol polyI used merged rest
    else if sharedLen polyI polyJ < tol then
      mergeInner sharedLen unionFn troubleFn tol polyI used merged rest
    else
      match unionFn polyI polyJ with
      | none => mergeInner sharedLen unionFn troubleFn tol polyI used merged rest
      | some u =>
        let tr := troubleFn u
        if tr.1 ∧ tr.2 then
          mergeInner sharedLen unionFn troubleFn tol polyI used merged rest
        else mergeInner sharedLen unionFn troubleFn tol u (j :: used) true rest

/-- Outer i-loop of one merge pass over the enumerated partition list: skip
absorbed indices, run the inner loop of each i on the remaining enumerated
pairs, append the resulting polygon, add i to the used set. -/
def mergeOuter {π : Type} (sharedLen : π → π → ℚ) (unionFn : π → π → Option π)
    (troubleFn : π → Bool × Bool) (tol : ℚ) :
    List ℕ → Bool → List (ℕ × π) → List π × Bool
  | _, merged, [] => ([], merged)
  | used, merged, (i, polyI) :: rest =>
    if i ∈ used then mergeOuter sharedLen unionFn troubleFn tol used merged rest
    else
      let r := mergeInner sharedLen unionFn troubleFn tol polyI used merged rest
      let tail := mergeOuter sharedLen unionFn troubleFn tol (i :: r.2.1) r.2.2 rest
      (r.1 :: tail.1, tail.2)

/-- One pass of the while-loop of merge_partitions: new partition list and the
merged_any flag of the pass. -/
def onePass {π : Type} (sharedLen : π → π → ℚ) (unionFn : π → π → Option π)
    (troubleFn : π → Bool × Bool) (tol : ℚ) (parts : List π) : List π × Bool :=
  mergeOuter sharedLen unionFn troubleFn tol [] false parts.enum

/-- While-loop of merge_partitions: repeat passes while one merged.  The fuel
argument only forces termination: merge_partitions passes length + 1, an upper
bound since every merging pass shortens the list, so the fuel-exhausted branch
is never reached. -/
def mergeLoop {π : Type} (sharedLen : π → π → ℚ) (unionFn : π → π → Option π)
    (troubleFn : π → Bool × Bool) (tol : ℚ) : ℕ → List π → List π
  | 0, parts => parts
  | fuel + 1, parts =>
    let r := onePass sharedLen unionFn troubleFn tol parts
    if r.2 then mergeLoop sharedLen unionFn troubleFn tol fuel r.1 else r.1

/-- merge_partitions of cpp.decomposition (final partition list; the merge_log
diagnostic is omitted). -/
def merge_partitions {π : Type} (sharedLen : π → π → ℚ)
    (unionFn : π → π → Option π) (troubleFn : π → Bool × Bool) (tol : ℚ)
    (parts : List π) : List π :=
  mergeLoop sharedLen unionFn troubleFn tol (parts.length + 1) parts

/-! ## Concrete instances for witnesses and counterexamples -/

/-- Taxicab metric: a concrete computable metric instance. -/
def dTaxi : Point → Point → ℚ :=
  fun p q => |p.1 - q.1| + |p.2 - q.2|

/-- Concrete angle-test instance declaring no pair of directions a turn. -/
def noTurn : Point → Point → Bool :=
  fun _ _ => false

/-- Concrete split oracle instance that never splits. -/
def splitId : RectPoly → CutLine → List RectPoly :=
  fun p _ => [p]

/-- The 10 x 10 square with the hole [1,2] x [6,7]: troublesome in both axes
(the sweeps between the hole coordinates cross it), yet the exterior-based gap
quantifier sees only the bands of the outer square, whose mid sweeps miss the
hole, so both unions are absent and the partitioner is stuck. -/
def holedSquare : RectPoly :=
  { exterior := [(0, 0), (10, 0), (10, 10), (0, 10)]
    holes := [[(1, 6), (2, 6), (2, 7), (1, 7)]] }

/-- Plain 10 x 4 rectangle: not troublesome in either axis. -/
def plainRect : RectPoly :=
  { exterior := [(0, 0), (10, 0), (10, 4), (0, 4)], holes := [] }

/-! ## Lemmas: the running-best fold computes a minimum with witness -/

theorem obetter_none_right (a : Option (ℚ × List (ℕ × ℕ))) :
    obetter a none = a := by
  cases a <;> rfl

theorem obetter_none_left (a : Option (ℚ × List (ℕ × ℕ))) :
    obetter none a = a := by
  cases a <;> rfl

theorem obetter_assoc (a b c : Option (ℚ × List (ℕ × ℕ))) :
    obetter (obetter a b) c = obetter a (obetter b c) := by
  rcases a with _ | a
  · rw [obetter_none_left, obetter_none_left]
  rcases b with _ | b
  · cases c <;> rfl
  rcases c with _ | c
  · rw [obetter_none_right, obetter_none_right]
  show obetter (if b.1 < a.1 then some b else some a) (some c) =
    obetter (some a) (if c.1 < b.1 then some c else some b)
  split_ifs with h1 h2 h2 <;> simp only [obetter] <;>
    split_ifs <;> first | rfl | (exfalso; linarith)

/-- Minimum (left-biased, none for the empty list) of a list of optional
values. -/
def ominList (l : List (Option (ℚ × List (ℕ × ℕ)))) :
    Option (ℚ × List (ℕ × ℕ)) :=
  l.foldl obetter none

theorem foldl_obetter (l : List (Option (ℚ × List (ℕ × ℕ)))) (a) :
    l.foldl obetter a = obetter a (ominList l) := by
  induction l generalizing a with
  | nil => simp [ominList, obetter_none_right]
  | cons x l ih =>
    show (l.foldl obetter (obetter a x)) = _
    rw [ih (obetter a x), obetter_assoc]
    show _ = obetter a (List.foldl obetter (obetter none x) l)
    rw [ih (obetter none x), obetter_none_left]

theorem ominList_cons (x : Option (ℚ × List (ℕ × ℕ))) (l) :
    ominList (x :: l) = obetter x (ominList l) := by
  show List.foldl obetter (obetter none x) l = _
  rw [foldl_obetter, obetter_none_left]

theorem foldl_obetter_map {β : Type} (g : β → Option (ℚ × List (ℕ × ℕ)))
    (l : List β) (a) :
    l.foldl (fun best x => obetter best (g x)) a = obetter a (ominList (l.map g)) := by
  induction l generalizing a with
  | nil => simp [ominList, obetter_none_right]
  | cons x l ih =>
    show (l.foldl (fun best x => obetter best (g x)) (obetter a (g x))) = _
    rw [ih, List.map_cons, ominList_cons, obetter_assoc]

theorem ominList_eq_none_iff (l : List (Option (ℚ × List (ℕ × ℕ)))) :
    ominList l = none ↔ ∀ x ∈ l, x = none := by
  induction l with
  | nil => simp [ominList]
  | cons x l ih =>
    rw [ominList_cons]
    rcases x with _ | x
    · simp [obetter_none_left, ih]
    · constructor
      · intro h
        exfalso
        rcases hm : ominList l with _ | m
        · rw [hm] at h
          simp [obetter] at h
        · rw [hm] at h
          simp only [obetter] at h
          split_ifs at h <;> exact Option.noConfusion h
      · intro h
        exact absurd (h (some x) (List.mem_cons_self _ _)) (by simp)

theorem ominList_mem (l : List (Option (ℚ × List (ℕ × ℕ)))) (cp : ℚ × List (ℕ × ℕ))
    (h : ominList l = some cp) : some cp ∈ l := by
  induction l with
  | nil => simp [ominList] at h
  | cons x l ih =>
    rw [ominList_cons] at h
    rcases x with _ | x
    · rw [obetter_none_left] at h
      exact List.mem_cons_of_mem _ (ih h)
    · rcases hm : ominList l with _ | m
      · rw [hm, obetter_none_right] at h
        exact h ▸ List.mem_cons_self _ _
      · rw [hm] at h
        simp only [obetter] at h
        split_ifs at h
        · exact List.mem_cons_of_mem _ (ih (hm.trans h))
        · exact h ▸ List.mem_cons_self _ _

theorem ominList_le (l : List (Option (ℚ × List (ℕ × ℕ)))) :
    ∀ cp : ℚ × List (ℕ × ℕ), ominList l = some cp →
      ∀ q : ℚ × List (ℕ × ℕ), some q ∈ l → cp.1 ≤ q.1 := by
  induction l with
  | nil => intro cp h; simp [ominList] at h
  | cons x l ih =>
    intro cp h q hq
    rw [ominList_cons] at h
    rcases x with _ | a
    · rw [obetter_none_left] at h
      rcases List.mem_cons.1 hq with hq | hq
      · exact absurd hq (by simp)
      · exact ih cp h q hq
    · rcases hm : ominList l with _ | m
      · rw [hm, obetter_none_right] at h
        have ha : a = cp := Option.some.inj h
        rcases List.mem_cons.1 hq with hq | hq
        · rw [← ha, Option.some.inj hq]
        · exact absurd ((ominList_eq_none_iff l).1 hm (some q) hq) (by simp)
      · rw [hm] at h
        simp only [obetter] at h
        split_ifs at h with hlt
        · have hm' : m = cp := Option.some.inj h
          rcases List.mem_cons.1 hq with hq | hq
          · rw [← hm', Option.some.inj hq]
            exact le_of_lt hlt
          · rw [← hm']
            exact ih m hm q hq
        · have ha : a = cp := Option.some.inj h
          rcases List.mem_cons.1 hq with hq | hq
          · rw [← ha, Option.some.inj hq]
          · rw [← ha]
            exact le_trans (not_lt.1 hlt) (ih m hm q hq)

/-! ## Lemmas: unvisited sets, tours -/

theorem availList_eq_nil_iff (opts : List (List CandidateOption)) (mask : ℕ)
    (hmask : mask < 2 ^ opts.length) :
    availList opts mask = [] ↔ mask = 2 ^ opts.length - 1 := by
  constructor
  · intro h
    apply Nat.eq_of_testBit_eq
    intro i
    rw [Nat.testBit_two_pow_sub_one]
    by_cases hi : i < opts.length
    · have := List.filter_eq_nil_iff.1 h i (List.mem_range.2 hi)
      simp only [Bool.not_eq_true', Bool.not_eq_false] at this
      simp [this, hi]
    · have hle : 2 ^ opts.length ≤ 2 ^ i :=
        Nat.pow_le_pow_right (by norm_num) (le_of_not_lt hi)
      simp [Nat.testBit_eq_false_of_lt (lt_of_lt_of_le hmask hle), hi]
  · intro h
    apply List.filter_eq_nil_iff.2
    intro j hj
    rw [h, Nat.testBit_two_pow_sub_one]
    simp [List.mem_range.1 hj]

theorem availList_nodup (opts : List (List CandidateOption)) (mask : ℕ) :
    (availList opts mask).Nodup :=
  (List.nodup_range _).filter _

theorem availList_or (opts : List (List CandidateOption)) (mask j : ℕ)
    (hj : j ∈ availList opts mask) :
    availList opts (mask ||| 2 ^ j) = (availList opts mask).erase j := by
  rw [(availList_nodup opts mask).erase_eq_filter, availList, availList,
    List.filter_filter]
  apply List.filter_congr
  intro i _
  simp only [Nat.testBit_or, Nat.testBit_two_pow, Bool.not_or]
  by_cases hij : i = j
  · subst hij
    simp
  · have hji : ¬j = i := fun h => hij h.symm
    cases hmi : mask.testBit i <;> simp [hij, hji, hmi]

theorem availList_two_pow (opts : List (List CandidateOption)) (i : ℕ) :
    availList opts (2 ^ i) = (List.range opts.length).erase i := by
  rw [(List.nodup_range opts.length).erase_eq_filter, availList]
  apply List.filter_congr
  intro j _
  simp only [Nat.testBit_two_pow]
  by_cases hij : i = j
  · subst hij
    simp
  · have hji : ¬j = i := fun h => hij h.symm
    simp [hij, hji]

theorem mask_or_lt (opts : List (List CandidateOption)) (mask j : ℕ)
    (hmask : mask < 2 ^ opts.length) (hj : j < opts.length) :
    mask ||| 2 ^ j < 2 ^ opts.length :=
  Nat.or_lt_two_pow hmask (Nat.pow_lt_pow_right (by norm_num) hj)

theorem unvisitedPairs_mem (opts : List (List CandidateOption)) (mask : ℕ)
    (jk : ℕ × ℕ) :
    jk ∈ unvisitedPairs opts mask ↔
      jk.1 ∈ availList opts mask ∧ jk.2 < (opts.getD jk.1 []).length := by
  rcases jk with ⟨j, k⟩
  simp only [unvisitedPairs, availList, List.mem_flatMap, List.mem_map,
    List.mem_range]
  constructor
  · rintro ⟨j', hj', k', hk', h⟩
    cases h
    exact ⟨hj', hk'⟩
  · rintro ⟨hj, hk⟩
    exact ⟨j, hj, k, hk, rfl⟩

theorem topPairs_mem (opts : List (List CandidateOption)) (ik : ℕ × ℕ) :
    ik ∈ topPairs opts ↔
      ik.1 < opts.length ∧ ik.2 < (opts.getD ik.1 []).length := by
  rcases ik with ⟨i, k⟩
  simp only [topPairs, List.mem_flatMap, List.mem_map, List.mem_range]
  constructor
  · rintro ⟨i', hi', k', hk', h⟩
    cases h
    exact ⟨hi', hk'⟩
  · rintro ⟨hi, hk⟩
    exact ⟨i, hi, k, hk, rfl⟩

theorem isTourOf_nil (opts : List (List CandidateOption)) (avail : List ℕ) :
    IsTourOf opts avail [] ↔ avail = [] := by
  simp [IsTourOf, List.nil_perm]

theorem isTourOf_cons (opts : List (List CandidateOption)) (avail : List ℕ)
    (jk : ℕ × ℕ) (p : List (ℕ × ℕ)) :
    IsTourOf opts avail (jk :: p) ↔
      jk.1 ∈ avail ∧ jk.2 < (opts.getD jk.1 []).length ∧
        IsTourOf opts (avail.erase jk.1) p := by
  simp only [IsTourOf, List.map_cons, List.cons_perm_iff_perm_erase,
    List.mem_cons, forall_eq_or_imp]
  tauto

theorem isTourOf_exists (opts : List (List CandidateOption)) (avail : List ℕ)
    (h : ∀ j ∈ avail, (opts.getD j []) ≠ []) :
    IsTourOf opts avail (avail.map (fun j => (j, 0))) := by
  constructor
  · rw [List.map_map]
    have : (Prod.fst ∘ fun j => ((j, 0) : ℕ × ℕ)) = id := rfl
    rw [this, List.map_id]
  · intro jk hjk
    obtain ⟨j, hj, rfl⟩ := List.mem_map.1 hjk
    exact List.length_pos.2 (h j hj)

/-! ## Lemmas: the dynamic program of held_karp is optimal -/

theorem dp_full (d : Point → Point → ℚ) (opts : List (List CandidateOption))
    (fuel mask lp lc : ℕ) (h : mask = 2 ^ opts.length - 1) :
    dp d opts fuel mask lp lc = some (0, []) := by
  cases fuel <;> · rw [dp, if_pos h]

theorem dp_succ (d : Point → Point → ℚ) (opts : List (List CandidateOption))
    (fuel mask lp lc : ℕ) (h : ¬mask = 2 ^ opts.length - 1) :
    dp d opts (fuel + 1) mask lp lc =
      ominList ((unvisitedPairs opts mask).map
        (fun jk => (dp d opts fuel (mask ||| 2 ^ jk.1) jk.1 jk.2).map
          (fun s => (d (candAt opts lp lc).exit (candAt opts jk.1 jk.2).entry +
            (candAt opts jk.1 jk.2).cost + s.1, jk :: s.2)))) := by
  rw [dp, if_neg h]
  have := foldl_obetter_map
    (fun jk : ℕ × ℕ => (dp d opts fuel (mask ||| 2 ^ jk.1) jk.1 jk.2).map
      (fun s => (d (candAt opts lp lc).exit (candAt opts jk.1 jk.2).entry +
        (candAt opts jk.1 jk.2).cost + s.1, jk :: s.2)))
    (unvisitedPairs opts mask) none
  rw [obetter_none_left] at this
  exact this

theorem dp_spec (d : Point → Point → ℚ) (opts : List (List CandidateOption)) :
    ∀ fuel mask lp lc, mask < 2 ^ opts.length →
      (availList opts mask).length ≤ fuel →
      ((dp d opts fuel mask lp lc = none →
          ∀ p, ¬IsTourOf opts (availList opts mask) p) ∧
       (∀ c p, dp d opts fuel mask lp lc = some (c, p) →
          IsTourOf opts (availList opts mask) p ∧
          restCost d opts (candAt opts lp lc).exit p = c ∧
          ∀ q, IsTourOf opts (availList opts mask) q →
            c ≤ restCost d opts (candAt opts lp lc).exit q)) := by
  intro fuel
  induction fuel with
  | zero =>
    intro mask lp lc hmask hfuel
    have hnil : availList opts mask = [] := List.length_eq_zero.1 (Nat.le_zero.1 hfuel)
    have hfull : mask = 2 ^ opts.length - 1 := (availList_eq_nil_iff opts mask hmask).1 hnil
    rw [dp_full d opts 0 mask lp lc hfull, hnil]
    refine ⟨fun h => absurd h (by simp), ?_⟩
    intro c p h
    obtain ⟨rfl, rfl⟩ : (0 : ℚ) = c ∧ ([] : List (ℕ × ℕ)) = p := by
      have := Option.some.inj h
      exact ⟨congrArg Prod.fst this, congrArg Prod.snd this⟩
    refine ⟨(isTourOf_nil opts []).2 rfl, rfl, ?_⟩
    intro q hq
    have hqnil : q = [] := by
      have := List.perm_nil.1 hq.1
      exact List.map_eq_nil_iff.1 this
    subst hqnil
    simp [restCost]
  | succ fuel ih =>
    intro mask lp lc hmask hfuel
    by_cases hfull : mask = 2 ^ opts.length - 1
    · have hnil : availList opts mask = [] := (availList_eq_nil_iff opts mask hmask).2 hfull
      rw [dp_full d opts (fuel + 1) mask lp lc hfull, hnil]
      refine ⟨fun h => absurd h (by simp), ?_⟩
      intro c p h
      obtain ⟨rfl, rfl⟩ : (0 : ℚ) = c ∧ ([] : List (ℕ × ℕ)) = p := by
        have := Option.some.inj h
        exact ⟨congrArg Prod.fst this, congrArg Prod.snd this⟩
      refine ⟨(isTourOf_nil opts []).2 rfl, rfl, ?_⟩
      intro q hq
      have hqnil : q = [] := by
        have := List.perm_nil.1 hq.1
        exact List.map_eq_nil_iff.1 this
      subst hqnil
      simp [restCost]
    · have hne : availList opts mask ≠ [] :=
        fun h => hfull ((availList_eq_nil_iff opts mask hmask).1 h)
      have hlen1 : 1 ≤ (availList opts mask).length :=
        List.length_pos.2 hne
      rw [dp_succ d opts fuel mask lp lc hfull]
      constructor
      · -- none: no tour exists
        intro h p htour
        rcases p with _ | ⟨jk, rest⟩
        · exact hne ((isTourOf_nil opts _).1 htour)
        · obtain ⟨hj, hk, hrest⟩ := (isTourOf_cons opts _ jk rest).1 htour
          have hjmem : jk ∈ unvisitedPairs opts mask :=
            (unvisitedPairs_mem opts mask jk).2 ⟨hj, hk⟩
          have hjlt : jk.1 < opts.length :=
            List.mem_range.1 (List.mem_of_mem_filter hj)
          have hsubnone : dp d opts fuel (mask ||| 2 ^ jk.1) jk.1 jk.2 = none := by
            have := (ominList_eq_none_iff _).1 h _ (List.mem_map_of_mem _ hjmem)
            exact Option.map_eq_none'.1 this
          have IH := ih (mask ||| 2 ^ jk.1) jk.1 jk.2
            (mask_or_lt opts mask jk.1 hmask hjlt)
            (by
              rw [availList_or opts mask jk.1 hj, List.length_erase_of_mem hj]
              omega)
          rw [availList_or opts mask jk.1 hj] at IH
          exact IH.1 hsubnone rest hrest
      · -- some: the result is an optimal tour
        intro c p h
        obtain ⟨jk, hjmem, hg⟩ := List.mem_map.1 (ominList_mem _ _ h)
        obtain ⟨hj, hk⟩ := (unvisitedPairs_mem opts mask jk).1 hjmem
        have hjlt : jk.1 < opts.length :=
          List.mem_range.1 (List.mem_of_mem_filter hj)
        obtain ⟨s, hsub, hfs⟩ := Option.map_eq_some'.1 hg
        obtain ⟨hc, hp⟩ : d (candAt opts lp lc).exit (candAt opts jk.1 jk.2).entry +
            (candAt opts jk.1 jk.2).cost + s.1 = c ∧ jk :: s.2 = p := by
          have := hfs
          exact ⟨congrArg Prod.fst this, congrArg Prod.snd this⟩
        have IH := ih (mask ||| 2 ^ jk.1) jk.1 jk.2
          (mask_or_lt opts mask jk.1 hmask hjlt)
          (by
            rw [availList_or opts mask jk.1 hj, List.length_erase_of_mem hj]
            omega)
        rw [availList_or opts mask jk.1 hj] at IH
        obtain ⟨hts, hrs, hms⟩ := IH.2 s.1 s.2 (by rw [hsub])
        refine ⟨?_, ?_, ?_⟩
        · rw [← hp]
          exact (isTourOf_cons opts _ jk s.2).2 ⟨hj, hk, hts⟩
        · rw [← hp]
          show d (candAt opts lp lc).exit (candAt opts jk.1 jk.2).entry +
            (candAt opts jk.1 jk.2).cost +
            restCost d opts (candAt opts jk.1 jk.2).exit s.2 = c
          rw [hrs, hc]
        · intro q htq
          rcases q with _ | ⟨jk', rest'⟩
          · exact absurd ((isTourOf_nil opts _).1 htq) hne
          · obtain ⟨hj', hk', hrest'⟩ := (isTourOf_cons opts _ jk' rest').1 htq
            have hjmem' : jk' ∈ unvisitedPairs opts mask :=
              (unvisitedPairs_mem opts mask jk').2 ⟨hj', hk'⟩
            have hjlt' : jk'.1 < opts.length :=
              List.mem_range.1 (List.mem_of_mem_filter hj')
            have IH' := ih (mask ||| 2 ^ jk'.1) jk'.1 jk'.2
              (mask_or_lt opts mask jk'.1 hmask hjlt')
              (by
                rw [availList_or opts mask jk'.1 hj', List.length_erase_of_mem hj']
                omega)
            rw [availList_or opts mask jk'.1 hj'] at IH'
            rcases hsub' : dp d opts fuel (mask ||| 2 ^ jk'.1) jk'.1 jk'.2 with _ | s'
            · exact absurd hrest' (IH'.1 hsub' rest')
            · obtain ⟨hts', hrs', hms'⟩ := IH'.2 s'.1 s'.2 (by rw [hsub'])
              have hle := ominList_le _ _ h
                (d (candAt opts lp lc).exit (candAt opts jk'.1 jk'.2).entry +
                  (candAt opts jk'.1 jk'.2).cost + s'.1, jk' :: s'.2)
                (by
                  refine List.mem_map.2 ⟨jk', hjmem', ?_⟩
                  rw [hsub']
                  rfl)
              have hle' : c ≤ d (candAt opts lp lc).exit (candAt opts jk'.1 jk'.2).entry +
                  (candAt opts jk'.1 jk'.2).cost + s'.1 := hle
              have htail : s'.1 ≤ restCost d opts (candAt opts jk'.1 jk'.2).exit rest' :=
                hms' rest' hrest'
              show c ≤ d (candAt opts lp lc).exit (candAt opts jk'.1 jk'.2).entry +
                (candAt opts jk'.1 jk'.2).cost +
                restCost d opts (candAt opts jk'.1 jk'.2).exit rest'
              linarith

theorem adjust_length (candidate_options : List (List CandidateOption))
    (penalty tol : ℚ) :
    (adjust_candidate_options candidate_options penalty tol).length =
      candidate_options.length :=
  List.length_map _ _

theorem adjust_getD_length (candidate_options : List (List CandidateOption))
    (penalty tol : ℚ) (j : ℕ) :
    ((adjust_candidate_options candidate_options penalty tol).getD j []).length =
      (candidate_options.getD j []).length := by
  by_cases hj : j < candidate_options.length
  · rw [List.getD_eq_getElem _ _ (by rw [adjust_length]; exact hj),
      List.getD_eq_getElem _ _ hj]
    simp [adjust_candidate_options, adjustPartition]
  · rw [List.getD_eq_getElem?_getD, List.getD_eq_getElem?_getD,
      List.getElem?_eq_none (by rw [adjust_length]; omega),
      List.getElem?_eq_none (by omega)]

theorem held_karp_eq (d : Point → Point → ℚ)
    (candidate_options : List (List CandidateOption)) :
    held_karp d candidate_options =
      ominList ((topPairs (adjust_candidate_options candidate_options 1 defaultTol)).map
        (fun ik =>
          (dp d (adjust_candidate_options candidate_options 1 defaultTol)
              (adjust_candidate_options candidate_options 1 defaultTol).length
              (2 ^ ik.1) ik.1 ik.2).map
            (fun s =>
              ((candAt (adjust_candidate_options candidate_options 1 defaultTol)
                  ik.1 ik.2).cost + s.1, ik :: s.2)))) := by
  have := foldl_obetter_map
    (fun ik : ℕ × ℕ =>
      (dp d (adjust_candidate_options candidate_options 1 defaultTol)
          (adjust_candidate_options candidate_options 1 defaultTol).length
          (2 ^ ik.1) ik.1 ik.2).map
        (fun s =>
          ((candAt (adjust_candidate_options candidate_options 1 defaultTol)
              ik.1 ik.2).cost + s.1, ik :: s.2)))
    (topPairs (adjust_candidate_options candidate_options 1 defaultTol)) none
  rw [obetter_none_left] at this
  exact this

/-- C1: for a non-empty family of non-empty candidate lists, held_karp returns
a pair (c, p) where p visits every partition exactly once with a valid
candidate index, its total adjusted cost (first candidate cost plus, for each
subsequent pick, connector plus adjusted candidate cost, penalty 1) is exactly
c, and c is minimal over all permutations of the partitions and all candidate
selections.  Holds for every connector metric d. -/
theorem held_karp_optimal (d : Point → Point → ℚ)
    (candidate_options : List (List CandidateOption))
    (hne : candidate_options ≠ [])
    (hall : ∀ part ∈ candidate_options, part ≠ []) :
    ∃ c p, held_karp d candidate_options = some (c, p) ∧
      IsTourOf (adjust_candidate_options candidate_options 1 defaultTol)
        (List.range candidate_options.length) p ∧
      tourCost d (adjust_candidate_options candidate_options 1 defaultTol) p = c ∧
      ∀ q, IsTourOf (adjust_candidate_options candidate_options 1 defaultTol)
          (List.range candidate_options.length) q →
        c ≤ tourCost d (adjust_candidate_options candidate_options 1 defaultTol) q := by
  set opts := adjust_candidate_options candidate_options 1 defaultTol with hopts
  have hlen : opts.length = candidate_options.length := adjust_length _ _ _
  have hN : 0 < opts.length := by
    rw [hlen]
    exact List.length_pos.2 hne
  have hpartne : ∀ j ∈ List.range candidate_options.length, (opts.getD j []) ≠ [] := by
    intro j hj
    have hjlt : j < candidate_options.length := List.mem_range.1 hj
    intro hcon
    have h1 : (opts.getD j []).length = (candidate_options.getD j []).length :=
      adjust_getD_length _ _ _ _
    rw [hcon] at h1
    have h2 : candidate_options.getD j [] ∈ candidate_options := by
      rw [List.getD_eq_getElem _ _ hjlt]
      exact List.getElem_mem _
    exact hall _ h2 (List.length_eq_zero.1 h1.symm)
  have hrange : List.range opts.length = List.range candidate_options.length := by
    rw [hlen]
  -- the straightforward tour shows held_karp cannot return none
  have htour0 : IsTourOf opts (List.range candidate_options.length)
      ((List.range candidate_options.length).map (fun j => (j, 0))) :=
    isTourOf_exists opts _ (fun j hj => hpartne j hj)
  rcases hk : held_karp d candidate_options with _ | cp
  · exfalso
    rw [held_karp_eq] at hk
    rcases hcs : (List.range candidate_options.length).map
        (fun j => ((j, 0) : ℕ × ℕ)) with _ | ⟨ik, rest⟩
    · rw [hcs] at htour0
      have h0 := (isTourOf_nil opts _).1 htour0
      have : candidate_options.length = 0 := by
        simpa [List.range_eq_nil] using h0
      omega
    · rw [hcs] at htour0
      obtain ⟨hj, hkk, hrest⟩ := (isTourOf_cons opts _ ik rest).1 htour0
      have hilt : ik.1 < opts.length := by
        rw [hlen]
        exact List.mem_range.1 hj
      have hikmem : ik ∈ topPairs opts :=
        (topPairs_mem opts ik).2 ⟨hilt, hkk⟩
      have hgnone := (ominList_eq_none_iff _).1 hk _ (List.mem_map_of_mem _ hikmem)
      have hsubnone := Option.map_eq_none'.1 hgnone
      have hmask : 2 ^ ik.1 < 2 ^ opts.length :=
        Nat.pow_lt_pow_right (by norm_num) hilt
      have hfuel : (availList opts (2 ^ ik.1)).length ≤ opts.length := by
        rw [availList_two_pow]
        exact le_trans (List.length_erase_le _ _) (by simp)
      have HS := (dp_spec d opts opts.length (2 ^ ik.1) ik.1 ik.2 hmask hfuel).1 hsubnone
      rw [availList_two_pow, hrange] at HS
      exact HS rest hrest
  · rcases cp with ⟨c, p⟩
    refine ⟨c, p, rfl, ?_⟩
    rw [held_karp_eq] at hk
    obtain ⟨ik, hikmem, hg⟩ := List.mem_map.1 (ominList_mem _ _ hk)
    obtain ⟨hilt, hkk⟩ := (topPairs_mem opts ik).1 hikmem
    obtain ⟨s, hsub, hfs⟩ := Option.map_eq_some'.1 hg
    obtain ⟨hc, hp⟩ : (candAt opts ik.1 ik.2).cost + s.1 = c ∧ ik :: s.2 = p :=
      ⟨congrArg Prod.fst hfs, congrArg Prod.snd hfs⟩
    have hmask : 2 ^ ik.1 < 2 ^ opts.length :=
      Nat.pow_lt_pow_right (by norm_num) hilt
    have hfuel : (availList opts (2 ^ ik.1)).length ≤ opts.length := by
      rw [availList_two_pow]
      exact le_trans (List.length_erase_le _ _) (by simp)
    have HS := (dp_spec d opts opts.length (2 ^ ik.1) ik.1 ik.2 hmask hfuel).2
      s.1 s.2 (by rw [hsub])
    rw [availList_two_pow, hrange] at HS
    obtain ⟨hts, hrs, hms⟩ := HS
    refine ⟨?_, ?_, ?_⟩
    · rw [← hp]
      refine (isTourOf_cons opts _ ik s.2).2 ⟨?_, hkk, hts⟩
      rw [← hrange]
      exact List.mem_range.2 hilt
    · rw [← hp]
      show (candAt opts ik.1 ik.2).cost +
        restCost d opts (candAt opts ik.1 ik.2).exit s.2 = c
      rw [hrs, hc]
    · intro q htq
      rcases q with _ | ⟨ik', rest'⟩
      · exfalso
        have := (isTourOf_nil opts _).1 htq
        have : candidate_options.length = 0 := by
          simpa [List.range_eq_nil] using this
        rw [hlen] at hN
        omega
      · obtain ⟨hj', hkk', hrest'⟩ := (isTourOf_cons opts _ ik' rest').1 htq
        have hilt' : ik'.1 < opts.length := by
          rw [hlen]
          exact List.mem_range.1 hj'
        have hikmem' : ik' ∈ topPairs opts :=
          (topPairs_mem opts ik').2 ⟨hilt', hkk'⟩
        have hmask' : 2 ^ ik'.1 < 2 ^ opts.length :=
          Nat.pow_lt_pow_right (by norm_num) hilt'
        have hfuel' : (availList opts (2 ^ ik'.1)).length ≤ opts.length := by
          rw [availList_two_pow]
          exact le_trans (List.length_erase_le _ _) (by simp)
        rcases hsub' : dp d opts opts.length (2 ^ ik'.1) ik'.1 ik'.2 with _ | s'
        · exfalso
          have HS' := (dp_spec d opts opts.length (2 ^ ik'.1) ik'.1 ik'.2 hmask' hfuel').1 hsub'
          rw [availList_two_pow, hrange] at HS'
          exact HS' rest' hrest'
        · have HS' := (dp_spec d opts opts.length (2 ^ ik'.1) ik'.1 ik'.2 hmask' hfuel').2
            s'.1 s'.2 (by rw [hsub'])
          rw [availList_two_pow, hrange] at HS'
          obtain ⟨hts', hrs', hms'⟩ := HS'
          have hle := ominList_le _ _ hk
            ((candAt opts ik'.1 ik'.2).cost + s'.1, ik' :: s'.2)
            (by
              refine List.mem_map.2 ⟨ik', hikmem', ?_⟩
              rw [hsub']
              rfl)
          have hle' : c ≤ (candAt opts ik'.1 ik'.2).cost + s'.1 := hle
          have htail : s'.1 ≤ restCost d opts (candAt opts ik'.1 ik'.2).exit rest' :=
            hms' rest' hrest'
          show c ≤ (candAt opts ik'.1 ik'.2).cost +
            restCost d opts (candAt opts ik'.1 ik'.2).exit rest'
          linarith

/-- C1 witness: the optimality theorem applied to a concrete two-partition
instance with one candidate each, under the taxicab metric. -/
theorem held_karp_optimal_witness :
    ∃ c p,
      held_karp dTaxi [[⟨(0, 0), (1, 0), 3, 0, none⟩], [⟨(2, 0), (3, 0), 5, 2, none⟩]] =
        some (c, p) ∧
      IsTourOf (adjust_candidate_options
          [[⟨(0, 0), (1, 0), 3, 0, none⟩], [⟨(2, 0), (3, 0), 5, 2, none⟩]] 1 defaultTol)
        (List.range ([[⟨(0, 0), (1, 0), 3, 0, none⟩],
          [⟨(2, 0), (3, 0), 5, 2, none⟩]] : List (List CandidateOption)).length) p ∧
      tourCost dTaxi (adjust_candidate_options
          [[⟨(0, 0), (1, 0), 3, 0, none⟩], [⟨(2, 0), (3, 0), 5, 2, none⟩]] 1 defaultTol) p = c ∧
      ∀ q, IsTourOf (adjust_candidate_options
            [[⟨(0, 0), (1, 0), 3, 0, none⟩], [⟨(2, 0), (3, 0), 5, 2, none⟩]] 1 defaultTol)
          (List.range ([[⟨(0, 0), (1, 0), 3, 0, none⟩],
            [⟨(2, 0), (3, 0), 5, 2, none⟩]] : List (List CandidateOption)).length) q →
        c ≤ tourCost dTaxi (adjust_candidate_options
          [[⟨(0, 0), (1, 0), 3, 0, none⟩], [⟨(2, 0), (3, 0), 5, 2, none⟩]] 1 defaultTol) q :=
  held_karp_optimal dTaxi
    [[⟨(0, 0), (1, 0), 3, 0, none⟩], [⟨(2, 0), (3, 0), 5, 2, none⟩]]
    (by decide) (by decide)

/-- C2 counterexample: on the empty partition family held_karp does not return
cost 0 with an empty chosen list; it returns the no-tour sentinel
(float("inf"), None), modelled as none. -/
theorem held_karp_empty_counterexample :
    ¬(held_karp dTaxi [] = some (0, [])) := by
  decide

/-- C2 amended: held_karp applied to an empty sequence of partitions returns
the sentinel (float("inf"), None) - modelled none - not cost 0 and an empty
list: with N = 0 neither top-level loop body runs and the initial best values
are returned unchanged. -/
theorem held_karp_empty (d : Point → Point → ℚ) : held_karp d [] = none := rfl

/-! ## Lemmas: the turn-penalty adjustment -/

theorem foldl_min_le_self (l : List ℤ) (a : ℤ) : l.foldl min a ≤ a := by
  induction l generalizing a with
  | nil => exact le_refl a
  | cons b l ih => exact le_trans (ih (min a b)) (min_le_left a b)

theorem foldl_min_le_mem (l : List ℤ) (a : ℤ) : ∀ x ∈ l, l.foldl min a ≤ x := by
  induction l generalizing a with
  | nil => intro x hx; exact absurd hx (List.not_mem_nil x)
  | cons b l ih =>
    intro x hx
    rcases List.mem_cons.1 hx with hx | hx
    · subst hx
      exact le_trans (foldl_min_le_self l (min a x)) (min_le_right a x)
    · exact ih (min a b) x hx

theorem foldl_min_mem (l : List ℤ) (a : ℤ) :
    l.foldl min a = a ∨ l.foldl min a ∈ l := by
  induction l generalizing a with
  | nil => exact Or.inl rfl
  | cons b l ih =>
    have hred : (b :: l).foldl min a = l.foldl min (min a b) := rfl
    rw [hred]
    rcases ih (min a b) with h | h
    · rcases min_choice a b with hm | hm
      · exact Or.inl (by rw [h, hm])
      · refine Or.inr ?_
        rw [h, hm]
        exact List.mem_cons_self b l
    · exact Or.inr (List.mem_cons_of_mem b h)

theorem sameCostTurns_self_mem (partition : List CandidateOption)
    (cand : CandidateOption) (tol : ℚ) (hc : cand ∈ partition) (htol : 0 < tol) :
    cand.turns ∈ sameCostTurns partition cand tol := by
  apply List.mem_map_of_mem
  apply List.mem_filter.2
  refine ⟨hc, ?_⟩
  simp [htol]

theorem minTurnsNear_le (partition : List CandidateOption)
    (cand : CandidateOption) (tol : ℚ) :
    ∀ t ∈ sameCostTurns partition cand tol, minTurnsNear partition cand tol ≤ t := by
  intro t ht
  rw [minTurnsNear]
  rcases hl : sameCostTurns partition cand tol with _ | ⟨b, bs⟩
  · rw [hl] at ht
    exact absurd ht (List.not_mem_nil t)
  · rw [hl] at ht
    show List.foldl min b bs ≤ t
    rcases List.mem_cons.1 ht with h | h
    · rw [h]
      exact foldl_min_le_self bs b
    · exact foldl_min_le_mem bs b t h

theorem minTurnsNear_mem (partition : List CandidateOption)
    (cand : CandidateOption) (tol : ℚ)
    (h : sameCostTurns partition cand tol ≠ []) :
    minTurnsNear partition cand tol ∈ sameCostTurns partition cand tol := by
  rw [minTurnsNear]
  rcases hl : sameCostTurns partition cand tol with _ | ⟨b, bs⟩
  · exact absurd hl h
  · show List.foldl min b bs ∈ b :: bs
    rcases foldl_min_mem bs b with hm | hm
    · rw [hm]
      exact List.mem_cons_self b bs
    · exact List.mem_cons_of_mem b hm

theorem adjust_getD (opts : List (List CandidateOption)) (penalty tol : ℚ)
    (pIdx : ℕ) (hp : pIdx < opts.length) :
    (adjust_candidate_options opts penalty tol).getD pIdx [] =
      adjustPartition (opts.getD pIdx []) penalty tol := by
  rw [List.getD_eq_getElem _ _ (by rw [adjust_length]; exact hp),
    List.getD_eq_getElem _ _ hp]
  simp [adjust_candidate_options]

theorem adjustPartition_getD (partition : List CandidateOption)
    (penalty tol : ℚ) (i : ℕ) (hi : i < partition.length) :
    (adjustPartition partition penalty tol).getD i default =
      { entry := (partition.getD i default).entry
        exit := (partition.getD i default).exit
        cost := (partition.getD i default).cost + penalty *
          ((max 0 ((partition.getD i default).turns -
            minTurnsNear partition (partition.getD i default) tol) : ℤ) : ℚ)
        turns := (partition.getD i default).turns
        path := (partition.getD i default).path } := by
  rw [List.getD_eq_getElem _ _ (by simpa [adjustPartition] using hi),
    List.getD_eq_getElem _ _ hi]
  simp [adjustPartition]

/-- C6: within one partition, among two candidates of exactly equal cost the
one with strictly fewer turns gets a strictly lower adjusted cost under the
turn-penalty adjustment with penalty 1 (and the 1e-7 equal-cost tolerance), as
applied by the combiner. -/
theorem turn_penalty_strict (opts : List (List CandidateOption)) (pIdx i j : ℕ)
    (hp : pIdx < opts.length)
    (hi : i < (opts.getD pIdx []).length)
    (hj : j < (opts.getD pIdx []).length)
    (hcost : ((opts.getD pIdx []).getD i default).cost =
      ((opts.getD pIdx []).getD j default).cost)
    (hturns : ((opts.getD pIdx []).getD i default).turns <
      ((opts.getD pIdx []).getD j default).turns) :
    (candAt (adjust_candidate_options opts 1 defaultTol) pIdx i).cost <
      (candAt (adjust_candidate_options opts 1 defaultTol) pIdx j).cost := by
  set part := opts.getD pIdx [] with hpart
  set ci := part.getD i default with hci
  set cj := part.getD j default with hcj
  have hcimem : ci ∈ part := by
    rw [hci, List.getD_eq_getElem _ _ hi]
    exact List.getElem_mem _
  have hcjmem : cj ∈ part := by
    rw [hcj, List.getD_eq_getElem _ _ hj]
    exact List.getElem_mem _
  have htol : (0 : ℚ) < defaultTol := by norm_num [defaultTol]
  have hsame : sameCostTurns part ci defaultTol = sameCostTurns part cj defaultTol := by
    rw [sameCostTurns, sameCostTurns, hcost]
  have hmineq : minTurnsNear part ci defaultTol = minTurnsNear part cj defaultTol := by
    rw [minTurnsNear, minTurnsNear, hsame]
    rcases hl : sameCostTurns part cj defaultTol with _ | ⟨b, bs⟩
    · exfalso
      have := sameCostTurns_self_mem part cj defaultTol hcjmem htol
      rw [hl] at this
      exact List.not_mem_nil _ this
    · rfl
  set m := minTurnsNear part ci defaultTol with hm
  have hmle : m ≤ ci.turns :=
    minTurnsNear_le part ci defaultTol ci.turns
      (sameCostTurns_self_mem part ci defaultTol hcimem htol)
  show (candAt (adjust_candidate_options opts 1 defaultTol) pIdx i).cost <
    (candAt (adjust_candidate_options opts 1 defaultTol) pIdx j).cost
  rw [candAt, candAt, adjust_getD opts 1 defaultTol pIdx hp,
    adjustPartition_getD part 1 defaultTol i hi,
    adjustPartition_getD part 1 defaultTol j hj]
  show ci.cost + 1 * ((max 0 (ci.turns - minTurnsNear part ci defaultTol) : ℤ) : ℚ) <
    cj.cost + 1 * ((max 0 (cj.turns - minTurnsNear part cj defaultTol) : ℤ) : ℚ)
  rw [← hmineq, ← hm, hcost]
  have h1 : max 0 (ci.turns - m) = ci.turns - m := max_eq_right (by omega)
  have h2 : max 0 (cj.turns - m) = cj.turns - m := max_eq_right (by omega)
  rw [h1, h2]
  have : ((ci.turns - m : ℤ) : ℚ) < ((cj.turns - m : ℤ) : ℚ) := by
    exact_mod_cast sub_lt_sub_right hturns m
  linarith

/-- C6 witness: two equal-cost candidates with 1 and 4 turns in one partition;
the adjusted cost of the first is strictly smaller. -/
theorem turn_penalty_strict_witness :
    (candAt (adjust_candidate_options
        [[⟨(0, 0), (1, 0), 7, 1, none⟩, ⟨(1, 0), (0, 0), 7, 4, none⟩]] 1 defaultTol) 0 0).cost <
      (candAt (adjust_candidate_options
        [[⟨(0, 0), (1, 0), 7, 1, none⟩, ⟨(1, 0), (0, 0), 7, 4, none⟩]] 1 defaultTol) 0 1).cost :=
  turn_penalty_strict
    [[⟨(0, 0), (1, 0), 7, 1, none⟩, ⟨(1, 0), (0, 0), 7, 4, none⟩]] 0 0 1
    (by decide) (by decide) (by decide) (by decide) (by decide)

/-- C10: the adjustment only rewrites the cost field - entry, exit, turns and
path are preserved - and the new cost is the old cost plus
penalty * max(0, turns - m), where m is the least turn count among the
same-partition candidates whose cost is within the 1e-7 tolerance of the
candidate; for a non-negative penalty the cost never decreases. -/
theorem adjust_frame (opts : List (List CandidateOption)) (penalty : ℚ)
    (pIdx cIdx : ℕ) (hp : pIdx < opts.length)
    (hc : cIdx < (opts.getD pIdx []).length) :
    ((candAt (adjust_candidate_options opts penalty defaultTol) pIdx cIdx).entry =
        (candAt opts pIdx cIdx).entry ∧
      (candAt (adjust_candidate_options opts penalty defaultTol) pIdx cIdx).exit =
        (candAt opts pIdx cIdx).exit ∧
      (candAt (adjust_candidate_options opts penalty defaultTol) pIdx cIdx).turns =
        (candAt opts pIdx cIdx).turns ∧
      (candAt (adjust_candidate_options opts penalty defaultTol) pIdx cIdx).path =
        (candAt opts pIdx cIdx).path) ∧
    (∃ m : ℤ,
      m ∈ sameCostTurns (opts.getD pIdx []) (candAt opts pIdx cIdx) defaultTol ∧
      (∀ t ∈ sameCostTurns (opts.getD pIdx []) (candAt opts pIdx cIdx) defaultTol,
        m ≤ t) ∧
      (candAt (adjust_candidate_options opts penalty defaultTol) pIdx cIdx).cost =
        (candAt opts pIdx cIdx).cost +
          penalty * ((max 0 ((candAt opts pIdx cIdx).turns - m) : ℤ) : ℚ)) ∧
    (0 ≤ penalty →
      (candAt opts pIdx cIdx).cost ≤
        (candAt (adjust_candidate_options opts penalty defaultTol) pIdx cIdx).cost) := by
  have hkey : candAt (adjust_candidate_options opts penalty defaultTol) pIdx cIdx =
      { entry := (candAt opts pIdx cIdx).entry
        exit := (candAt opts pIdx cIdx).exit
        cost := (candAt opts pIdx cIdx).cost + penalty *
          ((max 0 ((candAt opts pIdx cIdx).turns -
            minTurnsNear (opts.getD pIdx []) (candAt opts pIdx cIdx) defaultTol) : ℤ) : ℚ)
        turns := (candAt opts pIdx cIdx).turns
        path := (candAt opts pIdx cIdx).path } := by
    rw [candAt, adjust_getD opts penalty defaultTol pIdx hp,
      adjustPartition_getD _ penalty defaultTol cIdx hc]
    rfl
  have hcmem : candAt opts pIdx cIdx ∈ opts.getD pIdx [] := by
    rw [candAt, List.getD_eq_getElem _ _ hc]
    exact List.getElem_mem _
  have htol : (0 : ℚ) < defaultTol := by norm_num [defaultTol]
  have hne : sameCostTurns (opts.getD pIdx []) (candAt opts pIdx cIdx) defaultTol ≠ [] := by
    intro h0
    have := sameCostTurns_self_mem _ _ defaultTol hcmem htol
    rw [h0] at this
    exact List.not_mem_nil _ this
  refine ⟨⟨by rw [hkey], by rw [hkey], by rw [hkey], by rw [hkey]⟩, ?_, ?_⟩
  · refine ⟨minTurnsNear (opts.getD pIdx []) (candAt opts pIdx cIdx) defaultTol,
      minTurnsNear_mem _ _ _ hne, minTurnsNear_le _ _ _, by rw [hkey]⟩
  · intro hpen
    rw [hkey]
    show (candAt opts pIdx cIdx).cost ≤ (candAt opts pIdx cIdx).cost + _
    have hmax : (0 : ℤ) ≤ max 0 ((candAt opts pIdx cIdx).turns -
        minTurnsNear (opts.getD pIdx []) (candAt opts pIdx cIdx) defaultTol) :=
      le_max_left _ _
    have : (0 : ℚ) ≤ penalty * ((max 0 ((candAt opts pIdx cIdx).turns -
        minTurnsNear (opts.getD pIdx []) (candAt opts pIdx cIdx) defaultTol) : ℤ) : ℚ) := by
      apply mul_nonneg hpen
      exact_mod_cast hmax
    linarith

/-- C10 witness: the frame theorem applied to a concrete one-partition family
with penalty 2. -/
theorem adjust_frame_witness :
    ((candAt (adjust_candidate_options
        [[⟨(0, 0), (1, 1), 5, 3, some [(0, 0), (1, 1)]⟩]] 2 defaultTol) 0 0).entry =
        (candAt [[⟨(0, 0), (1, 1), 5, 3, some [(0, 0), (1, 1)]⟩]] 0 0).entry ∧
      (candAt (adjust_candidate_options
        [[⟨(0, 0), (1, 1), 5, 3, some [(0, 0), (1, 1)]⟩]] 2 defaultTol) 0 0).exit =
        (candAt [[⟨(0, 0), (1, 1), 5, 3, some [(0, 0), (1, 1)]⟩]] 0 0).exit ∧
      (candAt (adjust_candidate_options
        [[⟨(0, 0), (1, 1), 5, 3, some [(0, 0), (1, 1)]⟩]] 2 defaultTol) 0 0).turns =
        (candAt [[⟨(0, 0), (1, 1), 5, 3, some [(0, 0), (1, 1)]⟩]] 0 0).turns ∧
      (candAt (adjust_candidate_options
        [[⟨(0, 0), (1, 1), 5, 3, some [(0, 0), (1, 1)]⟩]] 2 defaultTol) 0 0).path =
        (candAt [[⟨(0, 0), (1, 1), 5, 3, some [(0, 0), (1, 1)]⟩]] 0 0).path) ∧
    (∃ m : ℤ,
      m ∈ sameCostTurns ([[⟨(0, 0), (1, 1), 5, 3, some [(0, 0), (1, 1)]⟩]].getD 0 [])
        (candAt [[⟨(0, 0), (1, 1), 5, 3, some [(0, 0), (1, 1)]⟩]] 0 0) defaultTol ∧
      (∀ t ∈ sameCostTurns ([[⟨(0, 0), (1, 1), 5, 3, some [(0, 0), (1, 1)]⟩]].getD 0 [])
          (candAt [[⟨(0, 0), (1, 1), 5, 3, some [(0, 0), (1, 1)]⟩]] 0 0) defaultTol,
        m ≤ t) ∧
      (candAt (adjust_candidate_options
          [[⟨(0, 0), (1, 1), 5, 3, some [(0, 0), (1, 1)]⟩]] 2 defaultTol) 0 0).cost =
        (candAt [[⟨(0, 0), (1, 1), 5, 3, some [(0, 0), (1, 1)]⟩]] 0 0).cost +
          2 * ((max 0 ((candAt [[⟨(0, 0), (1, 1), 5, 3, some [(0, 0), (1, 1)]⟩]] 0 0).turns - m) : ℤ) : ℚ)) ∧
    ((0 : ℚ) ≤ 2 →
      (candAt [[⟨(0, 0), (1, 1), 5, 3, some [(0, 0), (1, 1)]⟩]] 0 0).cost ≤
        (candAt (adjust_candidate_options
          [[⟨(0, 0), (1, 1), 5, 3, some [(0, 0), (1, 1)]⟩]] 2 defaultTol) 0 0).cost) :=
  adjust_frame [[⟨(0, 0), (1, 1), 5, 3, some [(0, 0), (1, 1)]⟩]] 2 0 0
    (by decide) (by decide)

/-! ## Lemmas: candidate generator -/

theorem get_candidate_options_eq (d : Point → Point → ℚ)
    (isTurn : Point → Point → Bool) (wps : List Point) :
    (∀ h v : Bool,
      get_candidate_options d isTurn (some (h, v)) wps =
        ((if h = false ∨ (h = true ∧ v = true) then
            corner_variants_for_direction wps 0 1
          else []) ++
         (if v = false ∨ (v = true ∧ h = true) then
            corner_variants_for_direction wps 1 0
          else [])).filterMap (pathToOption d isTurn)) ∧
    get_candidate_options d isTurn none wps =
      (corner_variants_for_direction wps 0 1 ++
        corner_variants_for_direction wps 1 0).filterMap (pathToOption d isTurn) := by
  constructor
  · intro h v
    cases h <;> cases v <;> rfl
  · rfl

/-- C5: with a polygon present, the generator emits the horizontal-axis corner
variants (bin by x, sort by y) iff the polygon is not horizontally troublesome
or is troublesome in both axes, and the vertical-axis variants iff it is not
vertically troublesome or troublesome in both axes; with no polygon both axes
are emitted.  The polygon enters only through the troublesome flags (h, v). -/
theorem candidate_axis_eligibility (d : Point → Point → ℚ)
    (isTurn : Point → Point → Bool) (wps : List Point) :
    (∀ h v : Bool,
      get_candidate_options d isTurn (some (h, v)) wps =
        ((if h = false ∨ (h = true ∧ v = true) then
            corner_variants_for_direction wps 0 1
          else []) ++
         (if v = false ∨ (v = true ∧ h = true) then
            corner_variants_for_direction wps 1 0
          else [])).filterMap (pathToOption d isTurn)) ∧
    get_candidate_options d isTurn none wps =
      (corner_variants_for_direction wps 0 1 ++
        corner_variants_for_direction wps 1 0).filterMap (pathToOption d isTurn) :=
  get_candidate_options_eq d isTurn wps

/-- C7 counterexample: a single-waypoint cell list does not yield exactly one
candidate; with no polygon the generator emits eight. -/
theorem single_cell_counterexample :
    ¬((get_candidate_options dTaxi noTurn none [((0 : ℚ), (0 : ℚ))]).length = 1) := by
  decide

/-- C7 amended: for a single-waypoint cell list the generator returns four
candidates per eligible sweep axis (four or eight in total, all duplicates of
one sweep), each of cost 0 and 0 turns, entering and exiting at the single
waypoint. -/
theorem single_cell_candidates (d : Point → Point → ℚ)
    (isTurn : Point → Point → Bool) (flags : Option (Bool × Bool)) (w : Point) :
    ((get_candidate_options d isTurn flags [w]).length = 4 ∨
      (get_candidate_options d isTurn flags [w]).length = 8) ∧
    get_candidate_options d isTurn flags [w] =
      List.replicate (get_candidate_options d isTurn flags [w]).length
        ⟨w, w, 0, 0, some [w]⟩ := by
  have h0 : ∀ rb rl, compute_sweep_path [w] 0 1 rb rl = [w] := by
    intro rb rl
    cases rb <;> cases rl <;> rfl
  have h1 : ∀ rb rl, compute_sweep_path [w] 1 0 rb rl = [w] := by
    intro rb rl
    cases rb <;> cases rl <;> rfl
  have hc0 : corner_variants_for_direction [w] 0 1 = [[w], [w], [w], [w]] := by
    simp [corner_variants_for_direction, h0]
  have hc1 : corner_variants_for_direction [w] 1 0 = [[w], [w], [w], [w]] := by
    simp [corner_variants_for_direction, h1]
  have hopt : pathToOption d isTurn [w] = some ⟨w, w, 0, 0, some [w]⟩ := rfl
  rcases flags with _ | ⟨h, v⟩
  · rw [(get_candidate_options_eq d isTurn [w]).2, hc0, hc1]
    rw [show ([[w], [w], [w], [w]] ++ [[w], [w], [w], [w]]).filterMap
        (pathToOption d isTurn) =
        List.replicate 8 (⟨w, w, 0, 0, some [w]⟩ : CandidateOption) from by
      simp [List.filterMap_cons, hopt, List.replicate]]
    exact ⟨Or.inr rfl, rfl⟩
  · rw [(get_candidate_options_eq d isTurn [w]).1 h v]
    cases h <;> cases v <;> rw [hc0, hc1] <;>
      simp only [Bool.true_eq_false, Bool.false_eq_true, false_and, and_false,
        and_true, true_and, or_false, false_or, or_self, if_true, if_false,
        if_pos, if_neg, not_false_iff] <;>
      first
      | (rw [show ([[w], [w], [w], [w]] ++ [[w], [w], [w], [w]]).filterMap
            (pathToOption d isTurn) =
            List.replicate 8 (⟨w, w, 0, 0, some [w]⟩ : CandidateOption) from by
          simp [List.filterMap_cons, hopt, List.replicate]]
         exact ⟨Or.inr rfl, rfl⟩)
      | (rw [show ([[w], [w], [w], [w]] ++ ([] : List (List Point))).filterMap
            (pathToOption d isTurn) =
            List.replicate 4 (⟨w, w, 0, 0, some [w]⟩ : CandidateOption) from by
          simp [List.filterMap_cons, hopt, List.replicate]]
         exact ⟨Or.inl rfl, rfl⟩)
      | (rw [show (([] : List (List Point)) ++ [[w], [w], [w], [w]]).filterMap
            (pathToOption d isTurn) =
            List.replicate 4 (⟨w, w, 0, 0, some [w]⟩ : CandidateOption) from by
          simp [List.filterMap_cons, hopt, List.replicate]]
         exact ⟨Or.inl rfl, rfl⟩)

/-! ## Lemmas: cell distribution -/

theorem bestPartition_snd_mono {π : Type} (area : CellID → π → ℚ)
    (isEmptyP : π → Bool) (c : CellID) :
    ∀ (l : List π) (idx : ℕ) (st : Option ℕ × ℚ),
      st.2 ≤ (bestPartition area isEmptyP c idx l st).2 := by
  intro l
  induction l with
  | nil => intro idx st; exact le_refl _
  | cons p rest ih =>
    intro idx st
    show st.2 ≤ (if isEmptyP p then bestPartition area isEmptyP c (idx + 1) rest st
      else if st.2 < area c p then
        bestPartition area isEmptyP c (idx + 1) rest (some idx, area c p)
      else bestPartition area isEmptyP c (idx + 1) rest st).2
    split_ifs with h1 h2
    · exact ih (idx + 1) st
    · exact le_trans (le_of_lt h2) (ih (idx + 1) (some idx, area c p))
    · exact ih (idx + 1) st

theorem bestPartition_snd_ub {π : Type} (area : CellID → π → ℚ)
    (isEmptyP : π → Bool) (c : CellID) :
    ∀ (l : List π) (idx : ℕ) (st : Option ℕ × ℚ) (k : ℕ) (hk : k < l.length),
      isEmptyP (l.get ⟨k, hk⟩) = false →
      area c (l.get ⟨k, hk⟩) ≤ (bestPartition area isEmptyP c idx l st).2 := by
  intro l
  induction l with
  | nil =>
    intro idx st k hk
    exact absurd hk (by simp)
  | cons p rest ih =>
    intro idx st k hk hne
    show area c ((p :: rest).get ⟨k, hk⟩) ≤
      (if isEmptyP p then bestPartition area isEmptyP c (idx + 1) rest st
        else if st.2 < area c p then
          bestPartition area isEmptyP c (idx + 1) rest (some idx, area c p)
        else bestPartition area isEmptyP c (idx + 1) rest st).2
    rcases k with _ | k
    · -- head element
      have hp0 : (p :: rest).get ⟨0, hk⟩ = p := rfl
      rw [hp0] at hne ⊢
      split_ifs with h1 h2
      · rw [hne] at h1
        exact absurd h1 (by simp)
      · exact bestPartition_snd_mono area isEmptyP c rest (idx + 1) (some idx, area c p)
      · exact le_trans (not_lt.1 h2)
          (bestPartition_snd_mono area isEmptyP c rest (idx + 1) st)
    · -- tail element
      have hk' : k < rest.length := by
        simpa using hk
      have hget : (p :: rest).get ⟨k + 1, hk⟩ = rest.get ⟨k, hk'⟩ := rfl
      rw [hget]
      rw [hget] at hne
      split_ifs with h1 h2
      · exact ih (idx + 1) st k hk' hne
      · exact ih (idx + 1) (some idx, area c p) k hk' hne
      · exact ih (idx + 1) st k hk' hne

theorem bestPartition_choice {π : Type} (area : CellID → π → ℚ)
    (isEmptyP : π → Bool) (c : CellID) :
    ∀ (l : List π) (idx : ℕ) (st : Option ℕ × ℚ),
      bestPartition area isEmptyP c idx l st = st ∨
      ∃ k, ∃ hk : k < l.length,
        isEmptyP (l.get ⟨k, hk⟩) = false ∧
        (bestPartition area isEmptyP c idx l st).1 = some (idx + k) ∧
        (bestPartition area isEmptyP c idx l st).2 = area c (l.get ⟨k, hk⟩) ∧
        st.2 < area c (l.get ⟨k, hk⟩) ∧
        ∀ k2, ∀ hk2 : k2 < l.length, k2 < k → isEmptyP (l.get ⟨k2, hk2⟩) = false →
          area c (l.get ⟨k2, hk2⟩) < area c (l.get ⟨k, hk⟩) := by
  intro l
  induction l with
  | nil =>
    intro idx st
    exact Or.inl rfl
  | cons p rest ih =>
    intro idx st
    have hred : bestPartition area isEmptyP c idx (p :: rest) st =
      (if isEmptyP p then bestPartition area isEmptyP c (idx + 1) rest st
        else if st.2 < area c p then
          bestPartition area isEmptyP c (idx + 1) rest (some idx, area c p)
        else bestPartition area isEmptyP c (idx + 1) rest st) := rfl
    rw [hred]
    split_ifs with h1 h2
    · -- empty head, skipped
      rcases ih (idx + 1) st with h | ⟨k, hk, hne, hfst, hsnd, hgt, hmin⟩
      · exact Or.inl h
      · refine Or.inr ⟨k + 1, by simpa using hk, hne, ?_, hsnd, hgt, ?_⟩
        · rw [hfst]
          congr 1
          omega
        · intro k2 hk2 hlt hne2
          rcases k2 with _ | k2
          · have hp0 : (p :: rest).get ⟨0, hk2⟩ = p := rfl
            rw [hp0, h1] at hne2
            exact absurd hne2 (by simp)
          · have hk2' : k2 < rest.length := by simpa using hk2
            exact hmin k2 hk2' (by omega) hne2
    · -- non-empty head with strictly larger area: the running best moves here
      rcases ih (idx + 1) (some idx, area c p) with h | ⟨k, hk, hne, hfst, hsnd, hgt, hmin⟩
      · refine Or.inr ⟨0, by simp, ?_, ?_, ?_, h2, ?_⟩
        · show isEmptyP p = false
          simpa using h1
        · rw [h]
          show some idx = some (idx + 0)
          rfl
        · rw [h]
          rfl
        · intro k2 hk2 hlt
          omega
      · refine Or.inr ⟨k + 1, by simpa using hk, hne, ?_, hsnd, ?_, ?_⟩
        · rw [hfst]
          congr 1
          omega
        · have hgt2 : area c p < area c (rest.get ⟨k, hk⟩) := hgt
          exact lt_trans h2 hgt2
        · intro k2 hk2 hlt hne2
          rcases k2 with _ | k2
          · show area c ((p :: rest).get ⟨0, hk2⟩) < area c (rest.get ⟨k, hk⟩)
            have hp0 : (p :: rest).get ⟨0, hk2⟩ = p := rfl
            rw [hp0]
            exact hgt
          · have hk2' : k2 < rest.length := by simpa using hk2
            exact hmin k2 hk2' (by omega) hne2
    · -- non-empty head, not better: skipped
      rcases ih (idx + 1) st with h | ⟨k, hk, hne, hfst, hsnd, hgt, hmin⟩
      · exact Or.inl h
      · refine Or.inr ⟨k + 1, by simpa using hk, hne, ?_, hsnd, hgt, ?_⟩
        · rw [hfst]
          congr 1
          omega
        · intro k2 hk2 hlt hne2
          rcases k2 with _ | k2
          · show area c ((p :: rest).get ⟨0, hk2⟩) < area c (rest.get ⟨k, hk⟩)
            have hp0 : (p :: rest).get ⟨0, hk2⟩ = p := rfl
            rw [hp0]
            exact lt_of_le_of_lt (not_lt.1 h2) hgt
          · have hk2' : k2 < rest.length := by simpa using hk2
            exact hmin k2 hk2' (by omega) hne2

theorem assignCell_lt {π : Type} (area : CellID → π → ℚ) (isEmptyP : π → Bool)
    (parts : List π) (c : CellID) (i : ℕ)
    (h : assignCell area isEmptyP parts c = some i) : i < parts.length := by
  rcases bestPartition_choice area isEmptyP c parts 0 (none, 0) with hc | ⟨k, hk, _, hfst, _⟩
  · rw [assignCell, hc] at h
    exact absurd h (by simp)
  · rw [assignCell, hfst] at h
    have : i = k := by
      have := Option.some.inj h
      omega
    omega

theorem assignCell_none_all_zero {π : Type} (area : CellID → π → ℚ)
    (isEmptyP : π → Bool) (parts : List π) (c : CellID)
    (hnn : ∀ p ∈ parts, 0 ≤ area c p)
    (hemp : ∀ p ∈ parts, isEmptyP p = true → area c p = 0)
    (h : assignCell area isEmptyP parts c = none) :
    ∀ k, ∀ hk : k < parts.length, area c (parts.get ⟨k, hk⟩) = 0 := by
  intro k hk
  rcases bestPartition_choice area isEmptyP c parts 0 (none, 0) with hc | ⟨k', hk', _, hfst, _⟩
  · rcases hep : isEmptyP (parts.get ⟨k, hk⟩) with _ | _
    · -- non-empty: bounded by the final best area, which is 0
      have hub := bestPartition_snd_ub area isEmptyP c parts 0 (none, 0) k hk hep
      rw [hc] at hub
      have hnn1 := hnn (parts.get ⟨k, hk⟩) (List.get_mem parts _ _)
      exact le_antisymm hub hnn1
    · exact hemp _ (List.get_mem parts _ _) hep
  · rw [assignCell, hfst] at h
    exact absurd h (by simp)

theorem assignCell_some_max {π : Type} (area : CellID → π → ℚ)
    (isEmptyP : π → Bool) (parts : List π) (c : CellID) (i : ℕ)
    (hnn : ∀ p ∈ parts, 0 ≤ area c p)
    (hemp : ∀ p ∈ parts, isEmptyP p = true → area c p = 0)
    (h : assignCell area isEmptyP parts c = some i) :
    ∃ hi : i < parts.length,
      0 < area c (parts.get ⟨i, hi⟩) ∧
      (∀ j, ∀ hj : j < parts.length,
        area c (parts.get ⟨j, hj⟩) ≤ area c (parts.get ⟨i, hi⟩)) ∧
      ∀ j, ∀ hj : j < parts.length, j < i →
        area c (parts.get ⟨j, hj⟩) < area c (parts.get ⟨i, hi⟩) := by
  rcases bestPartition_choice area isEmptyP c parts 0 (none, 0)
    with hc | ⟨k, hk, hkne, hfst, hsnd, hgt, hmin⟩
  · rw [assignCell, hc] at h
    exact absurd h (by simp)
  · rw [assignCell, hfst] at h
    have hik : i = k := by
      have := Option.some.inj h
      omega
    subst hik
    refine ⟨hk, ?_, ?_, ?_⟩
    · have : ((none : Option ℕ), (0 : ℚ)).2 < area c (parts.get ⟨i, hk⟩) := hgt
      simpa using this
    · intro j hj
      rcases hep : isEmptyP (parts.get ⟨j, hj⟩) with _ | _
      · have hub := bestPartition_snd_ub area isEmptyP c parts 0 (none, 0) j hj hep
        rw [hsnd] at hub
        exact hub
      · rw [hemp _ (List.get_mem parts _ _) hep]
        have : ((none : Option ℕ), (0 : ℚ)).2 < area c (parts.get ⟨i, hk⟩) := hgt
        exact le_of_lt (by simpa using this)
    · intro j hj hji
      rcases hep : isEmptyP (parts.get ⟨j, hj⟩) with _ | _
      · exact hmin j hj hji hep
      · rw [hemp _ (List.get_mem parts _ _) hep]
        have : ((none : Option ℕ), (0 : ℚ)).2 < area c (parts.get ⟨i, hk⟩) := hgt
        simpa using this

theorem distStep_length {π : Type} (area : CellID → π → ℚ) (isEmptyP : π → Bool)
    (parts : List π) (out : List (List CellID)) (c : CellID) :
    (distStep area isEmptyP parts out c).length = out.length := by
  rw [distStep]
  rcases assignCell area isEmptyP parts c with _ | i
  · rfl
  · exact List.length_set _ _ _

theorem fold_distStep_getD {π : Type} (area : CellID → π → ℚ)
    (isEmptyP : π → Bool) (parts : List π) :
    ∀ (cells : List CellID) (out : List (List CellID)),
      out.length = parts.length → ∀ i,
      (cells.foldl (distStep area isEmptyP parts) out).getD i [] =
        out.getD i [] ++
          cells.filter (fun c => assignCell area isEmptyP parts c == some i) := by
  intro cells
  induction cells with
  | nil =>
    intro out hlen i
    simp
  | cons c cs ih =>
    intro out hlen i
    have hfold : ((c :: cs).foldl (distStep area isEmptyP parts) out) =
      cs.foldl (distStep area isEmptyP parts) (distStep area isEmptyP parts out c) := rfl
    rw [hfold, ih (distStep area isEmptyP parts out c)
      (by rw [distStep_length]; exact hlen) i]
    rcases hassign : assignCell area isEmptyP parts c with _ | j
    · have hds : distStep area isEmptyP parts out c = out := by
        rw [distStep, hassign]
      have hfil : (c :: cs).filter (fun c => assignCell area isEmptyP parts c == some i) =
          cs.filter (fun c => assignCell area isEmptyP parts c == some i) := by
        rw [List.filter_cons]
        simp [hassign]
      rw [hds, hfil]
    · have hjlt : j < out.length := by
        rw [hlen]
        exact assignCell_lt area isEmptyP parts c j hassign
      have hds : distStep area isEmptyP parts out c = out.set j (out.getD j [] ++ [c]) := by
        rw [distStep, hassign]
      rw [hds]
      by_cases hij : j = i
      · subst hij
        have hfil : (c :: cs).filter (fun c => assignCell area isEmptyP parts c == some j) =
            c :: cs.filter (fun c => assignCell area isEmptyP parts c == some j) := by
          rw [List.filter_cons]
          simp [hassign]
        rw [hfil,
          List.getD_eq_getElem _ _ (by rw [List.length_set]; exact hjlt),
          List.getElem_set_self, List.getD_eq_getElem _ _ hjlt]
        simp
      · have hfil : (c :: cs).filter (fun c => assignCell area isEmptyP parts c == some i) =
            cs.filter (fun c => assignCell area isEmptyP parts c == some i) := by
          rw [List.filter_cons]
          simp only [hassign]
          simp [hij]
        rw [hfil]
        by_cases hi : i < out.length
        · rw [List.getD_eq_getElem _ _ (by rw [List.length_set]; exact hi),
            List.getElem_set_ne hij, List.getD_eq_getElem _ _ hi]
        · have h1 : (out.set j (out.getD j [] ++ [c])).getD i [] = [] := by
            rw [List.getD_eq_getElem?_getD,
              List.getElem?_eq_none (by rw [List.length_set]; omega)]
            rfl
          have h2 : out.getD i ([] : List CellID) = [] := by
            rw [List.getD_eq_getElem?_getD, List.getElem?_eq_none (by omega)]
            rfl
          rw [h1, h2]

theorem foldl_distStep_nil_parts {π : Type} (area : CellID → π → ℚ)
    (isEmptyP : π → Bool) :
    ∀ (cells : List CellID) (out : List (List CellID)),
      cells.foldl (distStep area isEmptyP ([] : List π)) out = out := by
  intro cells
  induction cells with
  | nil => intro out; rfl
  | cons c cs ihc =>
    intro out
    show cs.foldl _ (distStep area isEmptyP [] out c) = out
    rw [show distStep area isEmptyP ([] : List π) out c = out from rfl]
    exact ihc out

theorem distribute_eq_fold {π : Type} (area : CellID → π → ℚ)
    (isEmptyP : π → Bool) (cellIds : List CellID) (parts : List π) :
    distribute_cells_to_subclusters area isEmptyP cellIds parts =
      cellIds.foldl (distStep area isEmptyP parts)
        (List.replicate parts.length []) := by
  rw [distribute_cells_to_subclusters]
  by_cases hc : (cellIds.isEmpty || parts.isEmpty) = true
  · rw [if_pos hc]
    rcases Bool.or_eq_true _ _ ▸ hc with h1 | h2
    · rw [List.isEmpty_iff.1 h1]
      rfl
    · have hp : parts = [] := List.isEmpty_iff.1 h2
      subst hp
      exact (foldl_distStep_nil_parts area isEmptyP cellIds _).symm
  · rw [if_neg hc]

theorem distribute_getD {π : Type} (area : CellID → π → ℚ)
    (isEmptyP : π → Bool) (cellIds : List CellID) (parts : List π) (i : ℕ) :
    (distribute_cells_to_subclusters area isEmptyP cellIds parts).getD i [] =
      cellIds.filter (fun c => assignCell area isEmptyP parts c == some i) := by
  rw [distribute_eq_fold,
    fold_distStep_getD area isEmptyP parts cellIds _ (List.length_replicate _ _) i]
  have : (List.replicate parts.length ([] : List CellID)).getD i [] = [] := by
    rw [List.getD_eq_getElem?_getD, List.getElem?_replicate]
    split_ifs <;> rfl
  rw [this]
  rfl

theorem distribute_mem {π : Type} (area : CellID → π → ℚ)
    (isEmptyP : π → Bool) (cellIds : List CellID) (parts : List π) (i : ℕ)
    (c : CellID) :
    c ∈ (distribute_cells_to_subclusters area isEmptyP cellIds parts).getD i [] ↔
      c ∈ cellIds ∧ assignCell area isEmptyP parts c = some i := by
  rw [distribute_getD, List.mem_filter]
  constructor
  · rintro ⟨h1, h2⟩
    exact ⟨h1, beq_iff_eq.1 h2⟩
  · rintro ⟨h1, h2⟩
    exact ⟨h1, beq_iff_eq.2 h2⟩

/-- C4: every input cell lands in at most one partition list - the one whose
intersection area with the cell is maximal, ties broken by the lowest
partition index - and a cell is dropped exactly when its area with every
partition is zero; no cell is ever placed in two lists.  The hypotheses state
that the area oracle is non-negative and vanishes on empty partitions, as real
intersection areas do. -/
theorem distribute_assignment {π : Type} (area : CellID → π → ℚ)
    (isEmptyP : π → Bool) (cellIds : List CellID) (parts : List π)
    (hnn : ∀ c ∈ cellIds, ∀ p ∈ parts, 0 ≤ area c p)
    (hemp : ∀ c ∈ cellIds, ∀ p ∈ parts, isEmptyP p = true → area c p = 0) :
    (∀ (c : CellID) (i j : ℕ),
      c ∈ (distribute_cells_to_subclusters area isEmptyP cellIds parts).getD i [] →
      c ∈ (distribute_cells_to_subclusters area isEmptyP cellIds parts).getD j [] →
      i = j) ∧
    ∀ c ∈ cellIds,
      ((∀ k, ∀ hk : k < parts.length, area c (parts.get ⟨k, hk⟩) = 0) ∧
        ∀ i, c ∉ (distribute_cells_to_subclusters area isEmptyP cellIds parts).getD i []) ∨
      (∃ i, ∃ hi : i < parts.length,
        c ∈ (distribute_cells_to_subclusters area isEmptyP cellIds parts).getD i [] ∧
        0 < area c (parts.get ⟨i, hi⟩) ∧
        (∀ j, ∀ hj : j < parts.length,
          area c (parts.get ⟨j, hj⟩) ≤ area c (parts.get ⟨i, hi⟩)) ∧
        ∀ j, ∀ hj : j < parts.length, j < i →
          area c (parts.get ⟨j, hj⟩) < area c (parts.get ⟨i, hi⟩)) := by
  constructor
  · intro c i j hi hj
    have h1 := ((distribute_mem area isEmptyP cellIds parts i c).1 hi).2
    have h2 := ((distribute_mem area isEmptyP cellIds parts j c).1 hj).2
    rw [h1] at h2
    exact Option.some.inj h2
  · intro c hc
    rcases hassign : assignCell area isEmptyP parts c with _ | i
    · refine Or.inl ⟨assignCell_none_all_zero area isEmptyP parts c
        (hnn c hc) (hemp c hc) hassign, ?_⟩
      intro i hmem
      have := ((distribute_mem area isEmptyP cellIds parts i c).1 hmem).2
      rw [hassign] at this
      exact Option.noConfusion this
    · obtain ⟨hi, hpos, hmax, htie⟩ := assignCell_some_max area isEmptyP parts c i
        (hnn c hc) (hemp c hc) hassign
      exact Or.inr ⟨i, hi,
        (distribute_mem area isEmptyP cellIds parts i c).2 ⟨hc, hassign⟩,
        hpos, hmax, htie⟩

/-- C4 witness: the assignment theorem applied to one cell and two partitions
modelled directly by their areas 1 and 2 (empty test always false). -/
theorem distribute_assignment_witness :
    (∀ (c : CellID) (i j : ℕ),
      c ∈ (distribute_cells_to_subclusters (fun (_ : CellID) (p : ℚ) => p)
        (fun _ => false) [((0 : ℤ), (0 : ℤ))] [(1 : ℚ), 2]).getD i [] →
      c ∈ (distribute_cells_to_subclusters (fun (_ : CellID) (p : ℚ) => p)
        (fun _ => false) [((0 : ℤ), (0 : ℤ))] [(1 : ℚ), 2]).getD j [] →
      i = j) ∧
    ∀ c ∈ [((0 : ℤ), (0 : ℤ))],
      ((∀ k, ∀ hk : k < ([(1 : ℚ), 2] : List ℚ).length,
          (([(1 : ℚ), 2] : List ℚ).get ⟨k, hk⟩) = 0) ∧
        ∀ i, c ∉ (distribute_cells_to_subclusters (fun (_ : CellID) (p : ℚ) => p)
          (fun _ => false) [((0 : ℤ), (0 : ℤ))] [(1 : ℚ), 2]).getD i []) ∨
      (∃ i, ∃ hi : i < ([(1 : ℚ), 2] : List ℚ).length,
        c ∈ (distribute_cells_to_subclusters (fun (_ : CellID) (p : ℚ) => p)
          (fun _ => false) [((0 : ℤ), (0 : ℤ))] [(1 : ℚ), 2]).getD i [] ∧
        0 < (([(1 : ℚ), 2] : List ℚ).get ⟨i, hi⟩) ∧
        (∀ j, ∀ hj : j < ([(1 : ℚ), 2] : List ℚ).length,
          (([(1 : ℚ), 2] : List ℚ).get ⟨j, hj⟩) ≤ (([(1 : ℚ), 2] : List ℚ).get ⟨i, hi⟩)) ∧
        ∀ j, ∀ hj : j < ([(1 : ℚ), 2] : List ℚ).length, j < i →
          (([(1 : ℚ), 2] : List ℚ).get ⟨j, hj⟩) < (([(1 : ℚ), 2] : List ℚ).get ⟨i, hi⟩)) :=
  distribute_assignment (fun (_ : CellID) (p : ℚ) => p) (fun _ => false)
    [((0 : ℤ), (0 : ℤ))] [(1 : ℚ), 2]
    (by decide) (by decide)

/-! ## Lemmas: greedy partitioner -/

/-- C8: the partitioner returns the subject polygon as the single piece, with
no pass record and no split attempt, as soon as the depth cap is reached or
is_polygon_troublesome does not report trouble in both axes. -/
theorem greedy_partition_base (splitFn : RectPoly → CutLine → List RectPoly)
    (maxDepth : ℕ) (tol : ℚ) (fuel depth : ℕ) (p : RectPoly)
    (h : maxDepth ≤ depth ∨
      ¬((is_polygon_troublesome p tol).1 ∧ (is_polygon_troublesome p tol).2)) :
    greedy_partition_aux splitFn maxDepth tol fuel depth p = ([p], []) := by
  rw [greedy_partition_aux.eq_def]
  exact if_pos h

/-- C8 witness: the convex hole-free rectangle is troublesome in neither axis,
so greedy_partition returns it as the single piece. -/
theorem greedy_partition_base_witness :
    greedy_partition_aux splitId 40 1 40 0 plainRect = ([plainRect], []) :=
  greedy_partition_base splitId 40 1 40 0 plainRect
    (Or.inr (by
      rw [show is_polygon_troublesome plainRect 1 = (false, false) from
        of_decide_eq_true (by with_unfolding_all rfl)]
      simp))

theorem aux_succ_eq (splitFn : RectPoly → CutLine → List RectPoly)
    (maxDepth : ℕ) (tol : ℚ) (fuel depth : ℕ) (p : RectPoly) :
    greedy_partition_aux splitFn maxDepth tol (fuel + 1) depth p =
      if maxDepth ≤ depth ∨
          ¬((is_polygon_troublesome p tol).1 ∧ (is_polygon_troublesome p tol).2) then
        ([p], [])
      else
        match cutChoice (quantify_gap_severity p tol false) with
        | none => ([p], [(⟨depth, p, none⟩ : PassRec)])
        | some cl =>
          if (fallbackSplit splitFn (quantify_gap_severity p tol false) p cl).2.length ≤ 1 then
            ([p], [(⟨depth, p,
              some (fallbackSplit splitFn (quantify_gap_severity p tol false) p cl).1⟩ : PassRec)])
          else
            ((greedy_partition_go splitFn maxDepth tol fuel (depth + 1)
                (fallbackSplit splitFn (quantify_gap_severity p tol false) p cl).2).1,
             (⟨depth, p,
               some (fallbackSplit splitFn (quantify_gap_severity p tol false) p cl).1⟩ : PassRec) ::
             (greedy_partition_go splitFn maxDepth tol fuel (depth + 1)
                (fallbackSplit splitFn (quantify_gap_severity p tol false) p cl).2).2) := by
  rw [greedy_partition_aux.eq_def]

theorem auxD_succ_eq (splitFn : RectPoly → CutLine → List RectPoly)
    (maxDepth : ℕ) (tol : ℚ) (fuel depth : ℕ) (p : RectPoly) :
    greedy_partition_auxD splitFn maxDepth tol (fuel + 1) depth p =
      if maxDepth ≤ depth ∨
          ¬((is_polygon_troublesome p tol).1 ∧ (is_polygon_troublesome p tol).2) then
        ([(p, depth)], [])
      else
        match cutChoice (quantify_gap_severity p tol false) with
        | none => ([(p, depth)], [(⟨depth, p, none⟩ : PassRec)])
        | some cl =>
          if (fallbackSplit splitFn (quantify_gap_severity p tol false) p cl).2.length ≤ 1 then
            ([(p, depth)], [(⟨depth, p,
              some (fallbackSplit splitFn (quantify_gap_severity p tol false) p cl).1⟩ : PassRec)])
          else
            ((greedy_partition_goD splitFn maxDepth tol fuel (depth + 1)
                (fallbackSplit splitFn (quantify_gap_severity p tol false) p cl).2).1,
             (⟨depth, p,
               some (fallbackSplit splitFn (quantify_gap_severity p tol false) p cl).1⟩ : PassRec) ::
             (greedy_partition_goD splitFn maxDepth tol fuel (depth + 1)
                (fallbackSplit splitFn (quantify_gap_severity p tol false) p cl).2).2) := by
  rw [greedy_partition_auxD.eq_def]

theorem auxD_zero_eq (splitFn : RectPoly → CutLine → List RectPoly)
    (maxDepth : ℕ) (tol : ℚ) (depth : ℕ) (p : RectPoly) :
    greedy_partition_auxD splitFn maxDepth tol 0 depth p = ([(p, depth)], []) := by
  rw [greedy_partition_auxD.eq_def]
  by_cases h : maxDepth ≤ depth ∨
      ¬((is_polygon_troublesome p tol).1 ∧ (is_polygon_troublesome p tol).2)
  · exact if_pos h
  · exact if_neg h

theorem aux_zero_eq (splitFn : RectPoly → CutLine → List RectPoly)
    (maxDepth : ℕ) (tol : ℚ) (depth : ℕ) (p : RectPoly) :
    greedy_partition_aux splitFn maxDepth tol 0 depth p = ([p], []) := by
  rw [greedy_partition_aux.eq_def]
  by_cases h : maxDepth ≤ depth ∨
      ¬((is_polygon_troublesome p tol).1 ∧ (is_polygon_troublesome p tol).2)
  · exact if_pos h
  · exact if_neg h

theorem go_cons_eq (splitFn : RectPoly → CutLine → List RectPoly)
    (maxDepth : ℕ) (tol : ℚ) (fuel depth : ℕ) (q : RectPoly) (rest : List RectPoly) :
    greedy_partition_go splitFn maxDepth tol fuel depth (q :: rest) =
      if isEmptyPoly q then greedy_partition_go splitFn maxDepth tol fuel depth rest
      else
        ((greedy_partition_aux splitFn maxDepth tol fuel depth q).1 ++
          (greedy_partition_go splitFn maxDepth tol fuel depth rest).1,
         (greedy_partition_aux splitFn maxDepth tol fuel depth q).2 ++
          (greedy_partition_go splitFn maxDepth tol fuel depth rest).2) := by
  rw [greedy_partition_go.eq_def]

theorem goD_cons_eq (splitFn : RectPoly → CutLine → List RectPoly)
    (maxDepth : ℕ) (tol : ℚ) (fuel depth : ℕ) (q : RectPoly) (rest : List RectPoly) :
    greedy_partition_goD splitFn maxDepth tol fuel depth (q :: rest) =
      if isEmptyPoly q then greedy_partition_goD splitFn maxDepth tol fuel depth rest
      else
        ((greedy_partition_auxD splitFn maxDepth tol fuel depth q).1 ++
          (greedy_partition_goD splitFn maxDepth tol fuel depth rest).1,
         (greedy_partition_auxD splitFn maxDepth tol fuel depth q).2 ++
          (greedy_partition_goD splitFn maxDepth tol fuel depth rest).2) := by
  rw [greedy_partition_goD.eq_def]

theorem goD_mem (splitFn : RectPoly → CutLine → List RectPoly)
    (maxDepth : ℕ) (tol : ℚ) (fuel depth : ℕ) :
    ∀ (l : List RectPoly) (qd : RectPoly × ℕ),
      qd ∈ (greedy_partition_goD splitFn maxDepth tol fuel depth l).1 →
      ∃ q ∈ l, qd ∈ (greedy_partition_auxD splitFn maxDepth tol fuel depth q).1 := by
  intro l
  induction l with
  | nil =>
    intro qd h
    rw [show greedy_partition_goD splitFn maxDepth tol fuel depth [] = ([], []) from by
      rw [greedy_partition_goD.eq_def]] at h
    exact absurd h (List.not_mem_nil qd)
  | cons q rest ih =>
    intro qd h
    rw [goD_cons_eq] at h
    by_cases hq : isEmptyPoly q
    · rw [if_pos hq] at h
      obtain ⟨q', hq', hmem⟩ := ih qd h
      exact ⟨q', List.mem_cons_of_mem q hq', hmem⟩
    · rw [if_neg hq] at h
      have h2 : qd ∈ (greedy_partition_auxD splitFn maxDepth tol fuel depth q).1 ++
          (greedy_partition_goD splitFn maxDepth tol fuel depth rest).1 := h
      rcases List.mem_append.1 h2 with h3 | h3
      · exact ⟨q, List.mem_cons_self q rest, h3⟩
      · obtain ⟨q', hq', hmem⟩ := ih qd h3
        exact ⟨q', List.mem_cons_of_mem q hq', hmem⟩

theorem auxD_nocut_eq (splitFn : RectPoly → CutLine → List RectPoly)
    (maxDepth : ℕ) (tol : ℚ) (fuel depth : ℕ) (p : RectPoly)
    (hbase : ¬(maxDepth ≤ depth ∨
      ¬((is_polygon_troublesome p tol).1 ∧ (is_polygon_troublesome p tol).2)))
    (hcut : cutChoice (quantify_gap_severity p tol false) = none) :
    greedy_partition_auxD splitFn maxDepth tol (fuel + 1) depth p =
      ([(p, depth)], [(⟨depth, p, none⟩ : PassRec)]) := by
  rw [auxD_succ_eq, if_neg hbase, hcut]

theorem auxD_cut_eq (splitFn : RectPoly → CutLine → List RectPoly)
    (maxDepth : ℕ) (tol : ℚ) (fuel depth : ℕ) (p : RectPoly) (cl : CutLine)
    (hbase : ¬(maxDepth ≤ depth ∨
      ¬((is_polygon_troublesome p tol).1 ∧ (is_polygon_troublesome p tol).2)))
    (hcut : cutChoice (quantify_gap_severity p tol false) = some cl) :
    greedy_partition_auxD splitFn maxDepth tol (fuel + 1) depth p =
      if (fallbackSplit splitFn (quantify_gap_severity p tol false) p cl).2.length ≤ 1 then
        ([(p, depth)], [(⟨depth, p,
          some (fallbackSplit splitFn (quantify_gap_severity p tol false) p cl).1⟩ : PassRec)])
      else
        ((greedy_partition_goD splitFn maxDepth tol fuel (depth + 1)
            (fallbackSplit splitFn (quantify_gap_severity p tol false) p cl).2).1,
         (⟨depth, p,
           some (fallbackSplit splitFn (quantify_gap_severity p tol false) p cl).1⟩ : PassRec) ::
         (greedy_partition_goD splitFn maxDepth tol fuel (depth + 1)
            (fallbackSplit splitFn (quantify_gap_severity p tol false) p cl).2).2) := by
  rw [auxD_succ_eq, if_neg hbase, hcut]

theorem aux_nocut_eq (splitFn : RectPoly → CutLine → List RectPoly)
    (maxDepth : ℕ) (tol : ℚ) (fuel depth : ℕ) (p : RectPoly)
    (hbase : ¬(maxDepth ≤ depth ∨
      ¬((is_polygon_troublesome p tol).1 ∧ (is_polygon_troublesome p tol).2)))
    (hcut : cutChoice (quantify_gap_severity p tol false) = none) :
    greedy_partition_aux splitFn maxDepth tol (fuel + 1) depth p =
      ([p], [(⟨depth, p, none⟩ : PassRec)]) := by
  rw [aux_succ_eq, if_neg hbase, hcut]

theorem aux_cut_eq (splitFn : RectPoly → CutLine → List RectPoly)
    (maxDepth : ℕ) (tol : ℚ) (fuel depth : ℕ) (p : RectPoly) (cl : CutLine)
    (hbase : ¬(maxDepth ≤ depth ∨
      ¬((is_polygon_troublesome p tol).1 ∧ (is_polygon_troublesome p tol).2)))
    (hcut : cutChoice (quantify_gap_severity p tol false) = some cl) :
    greedy_partition_aux splitFn maxDepth tol (fuel + 1) depth p =
      if (fallbackSplit splitFn (quantify_gap_severity p tol false) p cl).2.length ≤ 1 then
        ([p], [(⟨depth, p,
          some (fallbackSplit splitFn (quantify_gap_severity p tol false) p cl).1⟩ : PassRec)])
      else
        ((greedy_partition_go splitFn maxDepth tol fuel (depth + 1)
            (fallbackSplit splitFn (quantify_gap_severity p tol false) p cl).2).1,
         (⟨depth, p,
           some (fallbackSplit splitFn (quantify_gap_severity p tol false) p cl).1⟩ : PassRec) ::
         (greedy_partition_go splitFn maxDepth tol fuel (depth + 1)
            (fallbackSplit splitFn (quantify_gap_severity p tol false) p cl).2).2) := by
  rw [aux_succ_eq, if_neg hbase, hcut]

theorem auxD_pieces (splitFn : RectPoly → CutLine → List RectPoly)
    (maxDepth : ℕ) (tol : ℚ) :
    ∀ fuel depth p, maxDepth ≤ fuel + depth →
      ∀ qd ∈ (greedy_partition_auxD splitFn maxDepth tol fuel depth p).1,
        qd.2 < maxDepth →
        ¬((is_polygon_troublesome qd.1 tol).1 ∧ (is_polygon_troublesome qd.1 tol).2) ∨
          stuckAt splitFn tol qd.1 := by
  intro fuel
  induction fuel with
  | zero =>
    intro depth p hfd qd hmem hlt
    rw [auxD_zero_eq] at hmem
    have hqd : qd = (p, depth) := by
      rcases List.mem_cons.1 hmem with h | h
      · exact h
      · exact absurd h (List.not_mem_nil qd)
    subst hqd
    exfalso
    omega
  | succ fuel ih =>
    intro depth p hfd qd hmem hlt
    by_cases hbase : maxDepth ≤ depth ∨
        ¬((is_polygon_troublesome p tol).1 ∧ (is_polygon_troublesome p tol).2)
    · rw [auxD_succ_eq, if_pos hbase] at hmem
      have hqd : qd = (p, depth) := by
        rcases List.mem_cons.1 hmem with h | h
        · exact h
        · exact absurd h (List.not_mem_nil qd)
      subst hqd
      rcases hbase with h | h
      · exact absurd hlt (by omega)
      · exact Or.inl h
    · rcases hcut : cutChoice (quantify_gap_severity p tol false) with _ | cl
      · rw [auxD_nocut_eq splitFn maxDepth tol fuel depth p hbase hcut] at hmem
        have hqd : qd = (p, depth) := by
          rcases List.mem_cons.1 hmem with h | h
          · exact h
          · exact absurd h (List.not_mem_nil qd)
        subst hqd
        exact Or.inr (Or.inl hcut)
      · rw [auxD_cut_eq splitFn maxDepth tol fuel depth p cl hbase hcut] at hmem
        by_cases hlen : (fallbackSplit splitFn
            (quantify_gap_severity p tol false) p cl).2.length ≤ 1
        · rw [if_pos hlen] at hmem
          have hqd : qd = (p, depth) := by
            rcases List.mem_cons.1 hmem with h | h
            · exact h
            · exact absurd h (List.not_mem_nil qd)
          subst hqd
          exact Or.inr (Or.inr ⟨cl, hcut, hlen⟩)
        · rw [if_neg hlen] at hmem
          have h2 : qd ∈ (greedy_partition_goD splitFn maxDepth tol fuel (depth + 1)
              (fallbackSplit splitFn (quantify_gap_severity p tol false) p cl).2).1 := hmem
          obtain ⟨q, _, hmem2⟩ := goD_mem splitFn maxDepth tol fuel (depth + 1) _ qd h2
          exact ih (depth + 1) q (by omega) qd hmem2 hlt

theorem goD_fst_eq (splitFn : RectPoly → CutLine → List RectPoly)
    (maxDepth : ℕ) (tol : ℚ) (fuel : ℕ)
    (haux : ∀ depth p,
      (greedy_partition_auxD splitFn maxDepth tol fuel depth p).1.map Prod.fst =
        (greedy_partition_aux splitFn maxDepth tol fuel depth p).1) :
    ∀ depth (l : List RectPoly),
      (greedy_partition_goD splitFn maxDepth tol fuel depth l).1.map Prod.fst =
        (greedy_partition_go splitFn maxDepth tol fuel depth l).1 := by
  intro depth l
  induction l with
  | nil =>
    rw [show greedy_partition_goD splitFn maxDepth tol fuel depth [] = ([], []) from by
      rw [greedy_partition_goD.eq_def],
      show greedy_partition_go splitFn maxDepth tol fuel depth [] = ([], []) from by
      rw [greedy_partition_go.eq_def]]
    rfl
  | cons q rest ih =>
    rw [goD_cons_eq, go_cons_eq]
    by_cases hq : isEmptyPoly q
    · rw [if_pos hq, if_pos hq]
      exact ih
    · rw [if_neg hq, if_neg hq]
      show ((greedy_partition_auxD splitFn maxDepth tol fuel depth q).1 ++
        (greedy_partition_goD splitFn maxDepth tol fuel depth rest).1).map Prod.fst = _
      rw [List.map_append, haux depth q, ih]

theorem auxD_fst_eq (splitFn : RectPoly → CutLine → List RectPoly)
    (maxDepth : ℕ) (tol : ℚ) :
    ∀ fuel depth p,
      (greedy_partition_auxD splitFn maxDepth tol fuel depth p).1.map Prod.fst =
        (greedy_partition_aux splitFn maxDepth tol fuel depth p).1 := by
  intro fuel
  induction fuel with
  | zero =>
    intro depth p
    rw [auxD_zero_eq, aux_zero_eq]
    rfl
  | succ fuel ih =>
    intro depth p
    by_cases hbase : maxDepth ≤ depth ∨
        ¬((is_polygon_troublesome p tol).1 ∧ (is_polygon_troublesome p tol).2)
    · rw [auxD_succ_eq, aux_succ_eq, if_pos hbase, if_pos hbase]
      rfl
    · rcases hcut : cutChoice (quantify_gap_severity p tol false) with _ | cl
      · rw [auxD_nocut_eq splitFn maxDepth tol fuel depth p hbase hcut,
          aux_nocut_eq splitFn maxDepth tol fuel depth p hbase hcut]
        rfl
      · rw [auxD_cut_eq splitFn maxDepth tol fuel depth p cl hbase hcut,
          aux_cut_eq splitFn maxDepth tol fuel depth p cl hbase hcut]
        by_cases hlen : (fallbackSplit splitFn
            (quantify_gap_severity p tol false) p cl).2.length ≤ 1
        · rw [if_pos hlen, if_pos hlen]
          rfl
        · rw [if_neg hlen, if_neg hlen]
          exact goD_fst_eq splitFn maxDepth tol fuel ih (depth + 1) _

/-- C3 counterexample: the square with an off-centre hole is troublesome in
both axes, yet greedy_partition returns it unchanged as its only piece, at
recursion depth 0, far below the depth cap 40: the exterior-based gap
quantifier sees no troublesome band, so no cut is even attempted. -/
theorem greedy_partition_counterexample :
    is_polygon_troublesome holedSquare 1 = (true, true) ∧
    (greedy_partition splitId holedSquare 40 1).1 = [holedSquare] ∧
    (greedy_partitionD splitId holedSquare 40 1).1 = [(holedSquare, 0)] ∧
    (0 : ℕ) < 40 :=
  ⟨of_decide_eq_true (by with_unfolding_all rfl),
   of_decide_eq_true (by with_unfolding_all rfl),
   of_decide_eq_true (by with_unfolding_all rfl),
   by norm_num⟩

/-- C3 amended: the depth-instrumented partitioner lists the same pieces as
greedy_partition, and every piece emitted at a depth strictly below max_depth
is monotone in at least one axis unless the partitioner was stuck on it: the
exterior-based gap quantifier produced no troublesome band on either axis, or
the chosen cut - after the fallback axis retry - failed to split the piece
into more than one part. -/
theorem greedy_partition_pieces (splitFn : RectPoly → CutLine → List RectPoly)
    (p : RectPoly) (maxDepth : ℕ) (tol : ℚ) :
    (greedy_partitionD splitFn p maxDepth tol).1.map Prod.fst =
      (greedy_partition splitFn p maxDepth tol).1 ∧
    ∀ qd ∈ (greedy_partitionD splitFn p maxDepth tol).1, qd.2 < maxDepth →
      ¬((is_polygon_troublesome qd.1 tol).1 ∧ (is_polygon_troublesome qd.1 tol).2) ∨
        stuckAt splitFn tol qd.1 :=
  ⟨auxD_fst_eq splitFn maxDepth tol maxDepth 0 p,
   fun qd hmem hlt =>
    auxD_pieces splitFn maxDepth tol maxDepth 0 p (by omega) qd hmem hlt⟩

/-- C3 amended witness: the pieces theorem applied to the holed square; its
only piece is emitted at depth 0 with the partitioner stuck on it. -/
theorem greedy_partition_pieces_witness :
    ¬((is_polygon_troublesome holedSquare 1).1 ∧
        (is_polygon_troublesome holedSquare 1).2) ∨
      stuckAt splitId 1 holedSquare :=
  (greedy_partition_pieces splitId holedSquare 40 1).2 (holedSquare, 0)
    (of_decide_eq_true (by with_unfolding_all rfl)) (by norm_num)

/-! ### merge_partitions: pass and loop lemmas for idempotence -/

/-- Cons-step unfolding of the inner merge loop, in plain if-then-else form. -/
theorem mergeInner_cons {π : Type} (sharedLen : π → π → ℚ)
    (unionFn : π → π → Option π) (troubleFn : π → Bool × Bool) (tol : ℚ)
    (polyI : π) (used : List ℕ) (merged : Bool) (j : ℕ) (polyJ : π)
    (rest : List (ℕ × π)) :
    mergeInner sharedLen unionFn troubleFn tol polyI used merged ((j, polyJ) :: rest) =
      if j ∈ used then
        mergeInner sharedLen unionFn troubleFn tol polyI used merged rest
      else if sharedLen polyI polyJ < tol then
        mergeInner sharedLen unionFn troubleFn tol polyI used merged rest
      else
        match unionFn polyI polyJ with
        | none => mergeInner sharedLen unionFn troubleFn tol polyI used merged rest
        | some u =>
          if (troubleFn u).1 ∧ (troubleFn u).2 then
            mergeInner sharedLen unionFn troubleFn tol polyI used merged rest
          else mergeInner sharedLen unionFn troubleFn tol u (j :: used) true rest := rfl

/-- Inner loop, skip branch: the candidate index is already absorbed. -/
theorem mergeInner_cons_mem {π : Type} {sharedLen : π → π → ℚ}
    {unionFn : π → π → Option π} {troubleFn : π → Bool × Bool} {tol : ℚ}
    {polyI : π} {used : List ℕ} {merged : Bool} {j : ℕ} {polyJ : π}
    {rest : List (ℕ × π)} (hj : j ∈ used) :
    mergeInner sharedLen unionFn troubleFn tol polyI used merged ((j, polyJ) :: rest) =
      mergeInner sharedLen unionFn troubleFn tol polyI used merged rest := by
  rw [mergeInner_cons]
  exact if_pos hj

/-- Inner loop, skip branch: the shared border is below the tolerance. -/
theorem mergeInner_cons_far {π : Type} {sharedLen : π → π → ℚ}
    {unionFn : π → π → Option π} {troubleFn : π → Bool × Bool} {tol : ℚ}
    {polyI : π} {used : List ℕ} {merged : Bool} {j : ℕ} {polyJ : π}
    {rest : List (ℕ × π)} (hj : ¬j ∈ used) (hs : sharedLen polyI polyJ < tol) :
    mergeInner sharedLen unionFn troubleFn tol polyI used merged ((j, polyJ) :: rest) =
      mergeInner sharedLen unionFn troubleFn tol polyI used merged rest := by
  rw [mergeInner_cons, if_neg hj]
  exact if_pos hs

/-- Inner loop, skip branch: the union does not normalise to one polygon. -/
theorem mergeInner_cons_none {π : Type} {sharedLen : π → π → ℚ}
    {unionFn : π → π → Option π} {troubleFn : π → Bool × Bool} {tol : ℚ}
    {polyI : π} {used : List ℕ} {merged : Bool} {j : ℕ} {polyJ : π}
    {rest : List (ℕ × π)} (hj : ¬j ∈ used) (hs : ¬sharedLen polyI polyJ < tol)
    (hu : unionFn polyI polyJ = none) :
    mergeInner sharedLen unionFn troubleFn tol polyI used merged ((j, polyJ) :: rest) =
      mergeInner sharedLen unionFn troubleFn tol polyI used merged rest := by
  rw [mergeInner_cons, if_neg hj, if_neg hs, hu]

/-- Inner loop, skip branch: the union is troublesome in both axes. -/
theorem mergeInner_cons_trouble {π : Type} {sharedLen : π → π → ℚ}
    {unionFn : π → π → Option π} {troubleFn : π → Bool × Bool} {tol : ℚ}
    {polyI : π} {used : List ℕ} {merged : Bool} {j : ℕ} {polyJ : π}
    {rest : List (ℕ × π)} {u : π} (hj : ¬j ∈ used) (hs : ¬sharedLen polyI polyJ < tol)
    (hu : unionFn polyI polyJ = some u) (ht : (troubleFn u).1 ∧ (troubleFn u).2) :
    mergeInner sharedLen unionFn troubleFn tol polyI used merged ((j, polyJ) :: rest) =
      mergeInner sharedLen unionFn troubleFn tol polyI used merged rest := by
  rw [mergeInner_cons, if_neg hj, if_neg hs, hu]
  exact if_pos ht

/-- Inner loop, accept branch: absorb polyJ, mark j used, set the flag. -/
theorem mergeInner_cons_accept {π : Type} {sharedLen : π → π → ℚ}
    {unionFn : π → π → Option π} {troubleFn : π → Bool × Bool} {tol : ℚ}
    {polyI : π} {used : List ℕ} {merged : Bool} {j : ℕ} {polyJ : π}
    {rest : List (ℕ × π)} {u : π} (hj : ¬j ∈ used) (hs : ¬sharedLen polyI polyJ < tol)
    (hu : unionFn polyI polyJ = some u) (ht : ¬((troubleFn u).1 ∧ (troubleFn u).2)) :
    mergeInner sharedLen unionFn troubleFn tol polyI used merged ((j, polyJ) :: rest) =
      mergeInner sharedLen unionFn troubleFn tol u (j :: used) true rest := by
  rw [mergeInner_cons, if_neg hj, if_neg hs, hu]
  exact if_neg ht

/-- Once the merged flag is set the inner loop never clears it. -/
theorem mergeInner_flag_mono {π : Type} (sharedLen : π → π → ℚ)
    (unionFn : π → π → Option π) (troubleFn : π → Bool × Bool) (tol : ℚ) :
    ∀ (rest : List (ℕ × π)) (polyI : π) (used : List ℕ),
      (mergeInner sharedLen unionFn troubleFn tol polyI used true rest).2.2 = true := by
  intro rest
  induction rest with
  | nil => intro polyI used; rfl
  | cons jp rest ih =>
    intro polyI used
    obtain ⟨j, polyJ⟩ := jp
    by_cases hj : j ∈ used
    · rw [mergeInner_cons_mem hj]
      exact ih polyI used
    · by_cases hs : sharedLen polyI polyJ < tol
      · rw [mergeInner_cons_far hj hs]
        exact ih polyI used
      · rcases hu : unionFn polyI polyJ with _ | u
        · rw [mergeInner_cons_none hj hs hu]
          exact ih polyI used
        · by_cases ht : (troubleFn u).1 ∧ (troubleFn u).2
          · rw [mergeInner_cons_trouble hj hs hu ht]
            exact ih polyI used
          · rw [mergeInner_cons_accept hj hs hu ht]
            exact ih u (j :: used)

/-- An inner-loop run that reports no merge changes nothing: it returns the
input polygon and used set with the flag still clear. -/
theorem mergeInner_false_id {π : Type} (sharedLen : π → π → ℚ)
    (unionFn : π → π → Option π) (troubleFn : π → Bool × Bool) (tol : ℚ) :
    ∀ (rest : List (ℕ × π)) (polyI : π) (used : List ℕ),
      (mergeInner sharedLen unionFn troubleFn tol polyI used false rest).2.2 = false →
      mergeInner sharedLen unionFn troubleFn tol polyI used false rest =
        (polyI, used, false) := by
  intro rest
  induction rest with
  | nil => intro polyI used _; rfl
  | cons jp rest ih =>
    intro polyI used hflag
    obtain ⟨j, polyJ⟩ := jp
    by_cases hj : j ∈ used
    · rw [mergeInner_cons_mem hj] at hflag ⊢
      exact ih polyI used hflag
    · by_cases hs : sharedLen polyI polyJ < tol
      · rw [mergeInner_cons_far hj hs] at hflag ⊢
        exact ih polyI used hflag
      · rcases hu : unionFn polyI polyJ with _ | u
        · rw [mergeInner_cons_none hj hs hu] at hflag ⊢
          exact ih polyI used hflag
        · by_cases ht : (troubleFn u).1 ∧ (troubleFn u).2
          · rw [mergeInner_cons_trouble hj hs hu ht] at hflag ⊢
            exact ih polyI used hflag
          · rw [mergeInner_cons_accept hj hs hu ht] at hflag
            rw [mergeInner_flag_mono sharedLen unionFn troubleFn tol rest u (j :: used)]
              at hflag
            exact Bool.noConfusion hflag

/-- The inner loop only ever grows the used index set. -/
theorem mergeInner_used_mono {π : Type} (sharedLen : π → π → ℚ)
    (unionFn : π → π → Option π) (troubleFn : π → Bool × Bool) (tol : ℚ) :
    ∀ (rest : List (ℕ × π)) (b : Bool) (polyI : π) (used : List ℕ) (x : ℕ),
      x ∈ used →
      x ∈ (mergeInner sharedLen unionFn troubleFn tol polyI used b rest).2.1 := by
  intro rest
  induction rest with
  | nil => intro b polyI used x hx; exact hx
  | cons jp rest ih =>
    intro b polyI used x hx
    obtain ⟨j, polyJ⟩ := jp
    by_cases hj : j ∈ used
    · rw [mergeInner_cons_mem hj]
      exact ih b polyI used x hx
    · by_cases hs : sharedLen polyI polyJ < tol
      · rw [mergeInner_cons_far hj hs]
        exact ih b polyI used x hx
      · rcases hu : unionFn polyI polyJ with _ | u
        · rw [mergeInner_cons_none hj hs hu]
          exact ih b polyI used x hx
        · by_cases ht : (troubleFn u).1 ∧ (troubleFn u).2
          · rw [mergeInner_cons_trouble hj hs hu ht]
            exact ih b polyI used x hx
          · rw [mergeInner_cons_accept hj hs hu ht]
            exact ih true u (j :: used) x (List.mem_cons_of_mem j hx)

/-- When an inner-loop run starting with a clear flag reports a merge, some
pair of the remaining list had a fresh index that ends up absorbed. -/
theorem mergeInner_flag_new {π : Type} (sharedLen : π → π → ℚ)
    (unionFn : π → π → Option π) (troubleFn : π → Bool × Bool) (tol : ℚ) :
    ∀ (rest : List (ℕ × π)) (polyI : π) (used : List ℕ),
      (mergeInner sharedLen unionFn troubleFn tol polyI used false rest).2.2 = true →
      ∃ jp ∈ rest, jp.1 ∉ used ∧
        jp.1 ∈ (mergeInner sharedLen unionFn troubleFn tol polyI used false rest).2.1 := by
  intro rest
  induction rest with
  | nil => intro polyI used h; exact Bool.noConfusion h
  | cons jp0 rest ih =>
    intro polyI used hflag
    obtain ⟨j, polyJ⟩ := jp0
    by_cases hj : j ∈ used
    · rw [mergeInner_cons_mem hj] at hflag ⊢
      obtain ⟨jp, hmem, hno, hin⟩ := ih polyI used hflag
      exact ⟨jp, List.mem_cons_of_mem _ hmem, hno, hin⟩
    · by_cases hs : sharedLen polyI polyJ < tol
      · rw [mergeInner_cons_far hj hs] at hflag ⊢
        obtain ⟨jp, hmem, hno, hin⟩ := ih polyI used hflag
        exact ⟨jp, List.mem_cons_of_mem _ hmem, hno, hin⟩
      · rcases hu : unionFn polyI polyJ with _ | u
        · rw [mergeInner_cons_none hj hs hu] at hflag ⊢
          obtain ⟨jp, hmem, hno, hin⟩ := ih polyI used hflag
          exact ⟨jp, List.mem_cons_of_mem _ hmem, hno, hin⟩
        · by_cases ht : (troubleFn u).1 ∧ (troubleFn u).2
          · rw [mergeInner_cons_trouble hj hs hu ht] at hflag ⊢
            obtain ⟨jp, hmem, hno, hin⟩ := ih polyI used hflag
            exact ⟨jp, List.mem_cons_of_mem _ hmem, hno, hin⟩
          · rw [mergeInner_cons_accept hj hs hu ht]
            refine ⟨(j, polyJ), List.mem_cons_self _ _, hj, ?_⟩
            exact mergeInner_used_mono sharedLen unionFn troubleFn tol rest true u
              (j :: used) j (List.mem_cons_self j used)

/-- Cons-step unfolding of the outer merge loop, with the inner-loop call and
recursive tail spelled out. -/
theorem mergeOuter_cons {π : Type} {sharedLen : π → π → ℚ}
    {unionFn : π → π → Option π} {troubleFn : π → Bool × Bool} {tol : ℚ}
    {used : List ℕ} {merged : Bool} {i : ℕ} {polyI : π} {rest : List (ℕ × π)} :
    mergeOuter sharedLen unionFn troubleFn tol used merged ((i, polyI) :: rest) =
      if i ∈ used then mergeOuter sharedLen unionFn troubleFn tol used merged rest
      else
        ((mergeInner sharedLen unionFn troubleFn tol polyI used merged rest).1 ::
            (mergeOuter sharedLen unionFn troubleFn tol
              (i :: (mergeInner sharedLen unionFn troubleFn tol polyI used merged rest).2.1)
              (mergeInner sharedLen unionFn troubleFn tol polyI used merged rest).2.2
              rest).1,
          (mergeOuter sharedLen unionFn troubleFn tol
            (i :: (mergeInner sharedLen unionFn troubleFn tol polyI used merged rest).2.1)
            (mergeInner sharedLen unionFn troubleFn tol polyI used merged rest).2.2
            rest).2) := rfl

/-- Once the merged flag is set the outer loop never clears it. -/
theorem mergeOuter_flag_mono {π : Type} (sharedLen : π → π → ℚ)
    (unionFn : π → π → Option π) (troubleFn : π → Bool × Bool) (tol : ℚ) :
    ∀ (l : List (ℕ × π)) (used : List ℕ),
      (mergeOuter sharedLen unionFn troubleFn tol used true l).2 = true := by
  intro l
  induction l with
  | nil => intro used; rfl
  | cons ip l ih =>
    intro used
    obtain ⟨i, polyI⟩ := ip
    by_cases hi : i ∈ used
    · rw [mergeOuter_cons, if_pos hi]
      exact ih used
    · rw [mergeOuter_cons, if_neg hi]
      show (mergeOuter sharedLen unionFn troubleFn tol
        (i :: (mergeInner sharedLen unionFn troubleFn tol polyI used true l).2.1)
        (mergeInner sharedLen unionFn troubleFn tol polyI used true l).2.2 l).2 = true
      rw [mergeInner_flag_mono sharedLen unionFn troubleFn tol l polyI used]
      exact ih _

/-- A pass emits at most one polygon per pair whose index is not yet used. -/
theorem mergeOuter_len_le {π : Type} (sharedLen : π → π → ℚ)
    (unionFn : π → π → Option π) (troubleFn : π → Bool × Bool) (tol : ℚ) :
    ∀ (l : List (ℕ × π)) (b : Bool) (used : List ℕ),
      (mergeOuter sharedLen unionFn troubleFn tol used b l).1.length ≤
        (l.filter fun ip => decide (ip.1 ∉ used)).length := by
  intro l
  induction l with
  | nil => intro b used; exact Nat.zero_le _
  | cons ip l ih =>
    intro b used
    obtain ⟨i, polyI⟩ := ip
    by_cases hi : i ∈ used
    · have hfil : (((i, polyI) :: l).filter fun ip => decide (ip.1 ∉ used)) =
          l.filter fun ip => decide (ip.1 ∉ used) := by
        simp [List.filter_cons, hi]
      rw [mergeOuter_cons, if_pos hi, hfil]
      exact ih b used
    · have hfil : (((i, polyI) :: l).filter fun ip => decide (ip.1 ∉ used)) =
          (i, polyI) :: l.filter fun ip => decide (ip.1 ∉ used) := by
        simp [List.filter_cons, hi]
      rw [mergeOuter_cons, if_neg hi, hfil]
      show ((mergeInner sharedLen unionFn troubleFn tol polyI used b l).1 ::
          (mergeOuter sharedLen unionFn troubleFn tol
            (i :: (mergeInner sharedLen unionFn troubleFn tol polyI used b l).2.1)
            (mergeInner sharedLen unionFn troubleFn tol polyI used b l).2.2 l).1).length ≤
        ((i, polyI) :: l.filter fun ip => decide (ip.1 ∉ used)).length
      rw [List.length_cons, List.length_cons]
      have h1 := ih (mergeInner sharedLen unionFn troubleFn tol polyI used b l).2.2
        (i :: (mergeInner sharedLen unionFn troubleFn tol polyI used b l).2.1)
      have h2 : ((l.filter fun ip =>
            decide (ip.1 ∉ i ::
              (mergeInner sharedLen unionFn troubleFn tol polyI used b l).2.1)).length ≤
          (l.filter fun ip => decide (ip.1 ∉ used)).length) := by
        refine (List.monotone_filter_right l ?_).length_le
        intro a ha
        simp only [decide_eq_true_eq] at ha ⊢
        intro hmem
        exact ha (List.mem_cons_of_mem i
          (mergeInner_used_mono sharedLen unionFn troubleFn tol l b polyI used a.1 hmem))
      omega

/-- Filtering by a strictly stronger predicate that rejects some kept element
gives a strictly shorter list. -/
theorem filter_length_lt {α : Type} (p q : α → Bool) :
    ∀ (l : List α), (∀ a, p a = true → q a = true) →
      ∀ x, x ∈ l → q x = true → p x = false →
      (l.filter p).length < (l.filter q).length := by
  intro l
  induction l with
  | nil => intro _ x hx; exact absurd hx (List.not_mem_nil x)
  | cons a l ih =>
    intro himp x hx hqx hpx
    rcases List.mem_cons.1 hx with rfl | hxl
    · have hle : (l.filter p).length ≤ (l.filter q).length :=
        (List.monotone_filter_right l himp).length_le
      rw [List.filter_cons, List.filter_cons, if_neg (by simp [hpx]), if_pos hqx]
      rw [List.length_cons]
      omega
    · have hlt := ih himp x hxl hqx hpx
      by_cases hpa : p a = true
      · rw [List.filter_cons, List.filter_cons, if_pos hpa, if_pos (himp a hpa)]
        rw [List.length_cons, List.length_cons]
        omega
      · rw [List.filter_cons, if_neg hpa]
        by_cases hqa : q a = true
        · rw [List.filter_cons, if_pos hqa, List.length_cons]
          omega
        · rw [List.filter_cons, if_neg hqa]
          exact hlt

/-- A pass that reports no merge copies the not-yet-used polygons through
unchanged, provided the enumerated indices are strictly increasing. -/
theorem mergeOuter_false_id {π : Type} (sharedLen : π → π → ℚ)
    (unionFn : π → π → Option π) (troubleFn : π → Bool × Bool) (tol : ℚ) :
    ∀ (l : List (ℕ × π)), (l.Pairwise fun a b => a.1 < b.1) →
      ∀ (used : List ℕ),
        (mergeOuter sharedLen unionFn troubleFn tol used false l).2 = false →
        (mergeOuter sharedLen unionFn troubleFn tol used false l).1 =
          (l.filter fun ip => decide (ip.1 ∉ used)).map Prod.snd := by
  intro l
  induction l with
  | nil => intro _ used _; rfl
  | cons ip l ih =>
    intro hpw used hflag
    obtain ⟨i, polyI⟩ := ip
    have hlt : ∀ b ∈ l, i < b.1 := (List.pairwise_cons.1 hpw).1
    have hpwl : l.Pairwise fun a b => a.1 < b.1 := (List.pairwise_cons.1 hpw).2
    by_cases hi : i ∈ used
    · have hfil : (((i, polyI) :: l).filter fun ip => decide (ip.1 ∉ used)) =
          l.filter fun ip => decide (ip.1 ∉ used) := by
        simp [List.filter_cons, hi]
      rw [mergeOuter_cons, if_pos hi] at hflag ⊢
      rw [hfil]
      exact ih hpwl used hflag
    · rw [mergeOuter_cons, if_neg hi] at hflag ⊢
      have hflag2 : (mergeOuter sharedLen unionFn troubleFn tol
          (i :: (mergeInner sharedLen unionFn troubleFn tol polyI used false l).2.1)
          (mergeInner sharedLen unionFn troubleFn tol polyI used false l).2.2 l).2 =
            false := hflag
      by_cases hr : (mergeInner sharedLen unionFn troubleFn tol polyI used false l).2.2 = true
      · rw [hr] at hflag2
        rw [mergeOuter_flag_mono sharedLen unionFn troubleFn tol l] at hflag2
        exact Bool.noConfusion hflag2
      · have hrf : (mergeInner sharedLen unionFn troubleFn tol polyI used false l).2.2 =
            false := by simpa using hr
        have hid := mergeInner_false_id sharedLen unionFn troubleFn tol l polyI used hrf
        rw [hid] at hflag2 ⊢
        have hflag3 : (mergeOuter sharedLen unionFn troubleFn tol (i :: used) false l).2 =
            false := hflag2
        show polyI :: (mergeOuter sharedLen unionFn troubleFn tol (i :: used) false l).1 =
          ((((i, polyI) :: l).filter fun ip => decide (ip.1 ∉ used)).map Prod.snd)
        have hfil : (((i, polyI) :: l).filter fun ip => decide (ip.1 ∉ used)) =
            (i, polyI) :: l.filter fun ip => decide (ip.1 ∉ used) := by
          simp [List.filter_cons, hi]
        rw [hfil, List.map_cons]
        have hcongr : (l.filter fun ip => decide (ip.1 ∉ i :: used)) =
            l.filter fun ip => decide (ip.1 ∉ used) := by
          refine List.filter_congr ?_
          intro a ha
          have hne : a.1 ≠ i := Nat.ne_of_gt (hlt a ha)
          simp [decide_eq_decide, List.mem_cons, hne]
        rw [ih hpwl (i :: used) hflag3, hcongr]

/-- A pass that reports a merge returns strictly fewer polygons than the pairs
it could keep. -/
theorem mergeOuter_lt {π : Type} (sharedLen : π → π → ℚ)
    (unionFn : π → π → Option π) (troubleFn : π → Bool × Bool) (tol : ℚ) :
    ∀ (l : List (ℕ × π)) (used : List ℕ),
      (mergeOuter sharedLen unionFn troubleFn tol used false l).2 = true →
      (mergeOuter sharedLen unionFn troubleFn tol used false l).1.length <
        (l.filter fun ip => decide (ip.1 ∉ used)).length := by
  intro l
  induction l with
  | nil => intro used h; exact Bool.noConfusion h
  | cons ip l ih =>
    intro used hflag
    obtain ⟨i, polyI⟩ := ip
    by_cases hi : i ∈ used
    · have hfil : (((i, polyI) :: l).filter fun ip => decide (ip.1 ∉ used)) =
          l.filter fun ip => decide (ip.1 ∉ used) := by
        simp [List.filter_cons, hi]
      rw [mergeOuter_cons, if_pos hi] at hflag ⊢
      rw [hfil]
      exact ih used hflag
    · rw [mergeOuter_cons, if_neg hi] at hflag ⊢
      have hflag2 : (mergeOuter sharedLen unionFn troubleFn tol
          (i :: (mergeInner sharedLen unionFn troubleFn tol polyI used false l).2.1)
          (mergeInner sharedLen unionFn troubleFn tol polyI used false l).2.2 l).2 =
            true := hflag
      have hfil : (((i, polyI) :: l).filter fun ip => decide (ip.1 ∉ used)) =
          (i, polyI) :: l.filter fun ip => decide (ip.1 ∉ used) := by
        simp [List.filter_cons, hi]
      rw [hfil]
      show ((mergeInner sharedLen unionFn troubleFn tol polyI used false l).1 ::
          (mergeOuter sharedLen unionFn troubleFn tol
            (i :: (mergeInner sharedLen unionFn troubleFn tol polyI used false l).2.1)
            (mergeInner sharedLen unionFn troubleFn tol polyI used false l).2.2 l).1).length <
        ((i, polyI) :: l.filter fun ip => decide (ip.1 ∉ used)).length
      rw [List.length_cons, List.length_cons]
      by_cases hr : (mergeInner sharedLen unionFn troubleFn tol polyI used false l).2.2 = true
      · obtain ⟨jp, hjmem, hjno, hjin⟩ :=
          mergeInner_flag_new sharedLen unionFn troubleFn tol l polyI used hr
        have h1 := mergeOuter_len_le sharedLen unionFn troubleFn tol l
          (mergeInner sharedLen unionFn troubleFn tol polyI used false l).2.2
          (i :: (mergeInner sharedLen unionFn troubleFn tol polyI used false l).2.1)
        have himp : ∀ a : ℕ × π,
            decide (a.1 ∉ i ::
              (mergeInner sharedLen unionFn troubleFn tol polyI used false l).2.1) = true →
            decide (a.1 ∉ used) = true := by
          intro a ha
          simp only [decide_eq_true_eq] at ha ⊢
          intro hmem
          exact ha (List.mem_cons_of_mem i
            (mergeInner_used_mono sharedLen unionFn troubleFn tol l false polyI used a.1 hmem))
        have h2 : (l.filter fun ip => decide (ip.1 ∉ i ::
              (mergeInner sharedLen unionFn troubleFn tol polyI used false l).2.1)).length <
            (l.filter fun ip => decide (ip.1 ∉ used)).length := by
          refine filter_length_lt _ _ l himp jp hjmem (decide_eq_true hjno) ?_
          exact decide_eq_false (not_not_intro (List.mem_cons_of_mem i hjin))
        omega
      · have hrf : (mergeInner sharedLen unionFn troubleFn tol polyI used false l).2.2 =
            false := by simpa using hr
        have hid := mergeInner_false_id sharedLen unionFn troubleFn tol l polyI used hrf
        rw [hid] at hflag2 ⊢
        have hflag3 : (mergeOuter sharedLen unionFn troubleFn tol (i :: used) false l).2 =
            true := hflag2
        have hltl := ih (i :: used) hflag3
        have h2 : (l.filter fun ip => decide (ip.1 ∉ i :: used)).length ≤
            (l.filter fun ip => decide (ip.1 ∉ used)).length := by
          refine (List.monotone_filter_right l ?_).length_le
          intro a ha
          simp only [decide_eq_true_eq] at ha ⊢
          intro hmem
          exact ha (List.mem_cons_of_mem i hmem)
        have hgoal : (mergeOuter sharedLen unionFn troubleFn tol (i :: used) false l).1.length
            + 1 < (l.filter fun ip => decide (ip.1 ∉ used)).length + 1 := by omega
        exact hgoal

/-- Enumeration produces strictly increasing indices. -/
theorem enum_pairwise {π : Type} (parts : List π) :
    parts.enum.Pairwise fun a b => a.1 < b.1 := by
  have h1 : (parts.enum.map Prod.fst).Pairwise (· < ·) := by
    rw [List.enum_map_fst]
    exact List.pairwise_lt_range parts.length
  exact List.pairwise_map.1 h1

/-- A pass of the while-loop that reports no merge returns the partition list
unchanged. -/
theorem onePass_false {π : Type} (sharedLen : π → π → ℚ)
    (unionFn : π → π → Option π) (troubleFn : π → Bool × Bool) (tol : ℚ)
    (parts : List π)
    (h : (onePass sharedLen unionFn troubleFn tol parts).2 = false) :
    (onePass sharedLen unionFn troubleFn tol parts).1 = parts := by
  have hid := mergeOuter_false_id sharedLen unionFn troubleFn tol parts.enum
    (enum_pairwise parts) [] h
  show (mergeOuter sharedLen unionFn troubleFn tol [] false parts.enum).1 = parts
  rw [hid]
  have hfil : (parts.enum.filter fun ip => decide (ip.1 ∉ ([] : List ℕ))) = parts.enum := by
    refine List.filter_eq_self.2 ?_
    intro a _
    simp
  rw [hfil, List.enum_map_snd]

/-- A pass of the while-loop that reports a merge strictly shortens the
partition list. -/
theorem onePass_lt {π : Type} (sharedLen : π → π → ℚ)
    (unionFn : π → π → Option π) (troubleFn : π → Bool × Bool) (tol : ℚ)
    (parts : List π)
    (h : (onePass sharedLen unionFn troubleFn tol parts).2 = true) :
    (onePass sharedLen unionFn troubleFn tol parts).1.length < parts.length := by
  have hlt := mergeOuter_lt sharedLen unionFn troubleFn tol parts.enum [] h
  have hfil : (parts.enum.filter fun ip => decide (ip.1 ∉ ([] : List ℕ))) = parts.enum := by
    refine List.filter_eq_self.2 ?_
    intro a _
    simp
  rw [hfil, List.enum_length] at hlt
  exact hlt

/-- Step unfolding of the while-loop of merge_partitions. -/
theorem mergeLoop_succ {π : Type} (sharedLen : π → π → ℚ)
    (unionFn : π → π → Option π) (troubleFn : π → Bool × Bool) (tol : ℚ)
    (fuel : ℕ) (parts : List π) :
    mergeLoop sharedLen unionFn troubleFn tol (fuel + 1) parts =
      if (onePass sharedLen unionFn troubleFn tol parts).2 then
        mergeLoop sharedLen unionFn troubleFn tol fuel
          (onePass sharedLen unionFn troubleFn tol parts).1
      else (onePass sharedLen unionFn troubleFn tol parts).1 := rfl

/-- With fuel above the list length the while-loop ends at a list on which a
further pass reports no merge: every merging pass strictly shortens the list. -/
theorem mergeLoop_flag {π : Type} (sharedLen : π → π → ℚ)
    (unionFn : π → π → Option π) (troubleFn : π → Bool × Bool) (tol : ℚ) :
    ∀ (fuel : ℕ) (parts : List π), parts.length < fuel →
      (onePass sharedLen unionFn troubleFn tol
        (mergeLoop sharedLen unionFn troubleFn tol fuel parts)).2 = false := by
  intro fuel
  induction fuel with
  | zero => intro parts h; exact absurd h (Nat.not_lt_zero _)
  | succ fuel ih =>
    intro parts h
    by_cases hflag : (onePass sharedLen unionFn troubleFn tol parts).2 = true
    · rw [mergeLoop_succ, if_pos hflag]
      have hlt := onePass_lt sharedLen unionFn troubleFn tol parts hflag
      exact ih _ (by omega)
    · have hf : (onePass sharedLen unionFn troubleFn tol parts).2 = false := by
        simpa using hflag
      rw [mergeLoop_succ, if_neg hflag,
        onePass_false sharedLen unionFn troubleFn tol parts hf]
      exact hf

/-- C9: merge_partitions is idempotent: running merge_partitions again, with
the same tolerance and the same adjacency, union and troublesomeness oracles,
on the partition list it returned gives that list back unchanged.  The final
while-loop pass reports no merge and such a pass is the identity, so the
returned list is a fixed point of every further pass. -/
theorem merge_partitions_idempotent {π : Type} (sharedLen : π → π → ℚ)
    (unionFn : π → π → Option π) (troubleFn : π → Bool × Bool) (tol : ℚ)
    (parts : List π) :
    merge_partitions sharedLen unionFn troubleFn tol
      (merge_partitions sharedLen unionFn troubleFn tol parts) =
    merge_partitions sharedLen unionFn troubleFn tol parts := by
  have hflag : (onePass sharedLen unionFn troubleFn tol
      (mergeLoop sharedLen unionFn troubleFn tol (parts.length + 1) parts)).2 = false :=
    mergeLoop_flag sharedLen unionFn troubleFn tol (parts.length + 1) parts
      (by omega)
  show mergeLoop sharedLen unionFn troubleFn tol
      ((mergeLoop sharedLen unionFn troubleFn tol (parts.length + 1) parts).length + 1)
      (mergeLoop sharedLen unionFn troubleFn tol (parts.length + 1) parts) =
    mergeLoop sharedLen unionFn troubleFn tol (parts.length + 1) parts
  rw [mergeLoop_succ, if_neg (by simp [hflag])]
  exact onePass_false sharedLen unionFn troubleFn tol _ hflag
